import Mathlib

/-!
Verification of the file-selection engine in `src/prompt/cli.py`.

The Python program is shallowly embedded: `pathlib.Path` values become
`APath` (a flag for absolute paths plus a list of components), byte strings
become `List Nat`, text becomes `String`, a directory root becomes a flat
finite map from relative paths to file bytes plus the `.gitignore` files
present, and fallible I/O (`open`, `read_text`) becomes `Option` /
`Except`.  The `pathspec` gitwildmatch library used by the program is
modelled from the documented gitignore pattern semantics (`*`, `?`, `**`,
trailing `/` for directory-only patterns, leading `!` for negation,
`#` comments, anchoring for patterns containing an inner slash, and
last-matching-pattern-wins evaluation).  Python's float threshold
comparisons (`size / total * 100 > 35` and `ratio > 0.3`) are modelled by
the exact integer comparisons `100 * size > 35 * total` and
`10 * n > 3 * len`; for the integer ratios that occur (totals far below
2^45) the double-precision comparison agrees with the exact one, including
at ratios exactly equal to the threshold.
-/

namespace Prompt

/-! ## Paths

`APath` models a `pathlib.Path` value: `isAbs` records whether the path is
absolute, `comps` its components.  `relP []` is `Path('.')`, `absP []` is
`Path('/')`. -/

structure APath where
  isAbs : Bool
  comps : List String
deriving DecidableEq

def relP (cs : List String) : APath := ⟨false, cs⟩

def absP (cs : List String) : APath := ⟨true, cs⟩

/-- `Path.relative_to`: succeeds (`some suffix`) exactly when `root` is a
prefix of `p` of the same absoluteness, mirroring the `ValueError` raised
by Python otherwise. -/
def relativeTo? (p root : APath) : Option (List String) :=
  if p.isAbs = root.isAbs && root.comps.isPrefixOf p.comps then
    some (p.comps.drop root.comps.length)
  else none

/-- Component lists of the proper ancestors of a component list, nearest
first, down to `[]`; mirrors `PurePath.parents` (for `Path('.')`, i.e.
`[]`, the list is empty). -/
def parentsAux (cs : List String) : List (List String) :=
  (List.range cs.length).reverse.map (fun k => cs.take k)

/-- `PurePath.parents` on an `APath` (keeps the absoluteness marker). -/
def pathParents (p : APath) : List APath :=
  (parentsAux p.comps).map (fun cs => ⟨p.isAbs, cs⟩)

/-- Model of `"/".join`, the separator-joining used by `str(Path)`. -/
def joinSlash : List String → String
  | [] => ""
  | [c] => c
  | c :: cs => c ++ "/" ++ joinSlash cs

/-- `str(path)`: `'.'` for an empty relative path, `'/'`-prefixed for
absolute paths. -/
def pathStr (p : APath) : String :=
  if p.isAbs then "/" ++ joinSlash p.comps
  else if p.comps = [] then "." else joinSlash p.comps

/-- Splitting a character list at `'/'` (model of `str.split('/')`);
always returns at least one part. -/
def splitSlashAux : List Char → List String
  | [] => [""]
  | c :: cs =>
    if c = '/' then "" :: splitSlashAux cs
    else
      match splitSlashAux cs with
      | [] => [String.mk [c]]
      | p :: ps => String.mk (c :: p.data) :: ps

def splitSlashStr (s : String) : List String := splitSlashAux s.data

/-! ## Gitwildmatch pattern model

A compiled pattern (`pathspec.patterns.GitWildMatchPattern`): a possible
negation flag, a directory-only flag (trailing `/`), an anchoring flag
(leading `/` or an inner `/`), and the glob segments, where a `**` segment
matches any number of path components. -/

inductive GSeg where
  | star2
  | lit (pat : List Char)
deriving DecidableEq

structure GPat where
  neg : Bool
  dirOnly : Bool
  anchored : Bool
  segs : List GSeg
deriving DecidableEq

/-- Glob match of one pattern segment against one path component
(`*` matches any run of characters, `?` any single character, everything
else literally). -/
def segMatch : List Char → List Char → Bool
  | [], cs => cs.isEmpty
  | '*' :: ps, cs => (List.range (cs.length + 1)).any (fun k => segMatch ps (cs.drop k))
  | '?' :: ps, cs =>
    match cs with
    | [] => false
    | _ :: cs' => segMatch ps cs'
  | p :: ps, cs =>
    match cs with
    | [] => false
    | c :: cs' => p = c && segMatch ps cs'

/-- Match the pattern segments against path components starting at the
current position.  After all segments are consumed, further components are
allowed (a matched directory's contents also match); a directory-only
pattern additionally requires at least one further component, and a
trailing `**` requires at least one component below the matched prefix. -/
def segsMatch (dirOnly : Bool) : List GSeg → List String → Bool
  | [], cs => if dirOnly then !cs.isEmpty else true
  | [GSeg.star2], cs => !cs.isEmpty
  | GSeg.star2 :: rest, cs =>
    (List.range (cs.length + 1)).any (fun k => segsMatch dirOnly rest (cs.drop k))
  | GSeg.lit p :: rest, cs =>
    match cs with
    | [] => false
    | c :: cs' => segMatch p c.data && segsMatch dirOnly rest cs'

/-- Try matching at every suffix of the component list (unanchored
patterns float to any directory level). -/
def sufMatches (dirOnly : Bool) (segs : List GSeg) : List String → Bool
  | [] => segsMatch dirOnly segs []
  | c :: cs => segsMatch dirOnly segs (c :: cs) || sufMatches dirOnly segs cs

/-- Match a compiled pattern against the components of a path string.
An anchored pattern matches only from the start; an unanchored one at any
component level, except that the regex `(?:.+/)?` built by pathspec cannot
skip a lone leading empty component (which arises only from the leading
slash of an absolute path string). -/
def rawMatch (p : GPat) (comps : List String) : Bool :=
  if p.anchored then segsMatch p.dirOnly p.segs comps
  else
    match comps with
    | [] => segsMatch p.dirOnly p.segs []
    | c :: cs =>
      segsMatch p.dirOnly p.segs (c :: cs) ||
        (if c = "" then
           match cs with
           | [] => false
           | _ :: cs' => sufMatches p.dirOnly p.segs cs'
         else sufMatches p.dirOnly p.segs cs)

/-- First character test (model of `str.startswith` for one character). -/
def strStarts (s : String) (c : Char) : Bool := s.data.head? = some c

/-- Last character test (model of `str.endswith` for one character). -/
def strEnds (s : String) (c : Char) : Bool := s.data.getLast? = some c

/-- Parse one gitignore line (`PathSpec.from_lines`): blank lines and
`#` comments yield no pattern; a leading `!` negates; a trailing `/`
restricts to directories; a leading or inner `/` anchors the pattern. -/
def parseLine (line : String) : Option GPat :=
  if line = "" then none
  else if strStarts line '#' then none
  else
    let neg := strStarts line '!'
    let body := if neg then String.mk (line.data.drop 1) else line
    if body = "" then none
    else
      let dirOnly := strEnds body '/'
      let body2 := if dirOnly then String.mk body.data.dropLast else body
      if body2 = "" then none
      else
        let anch1 := strStarts body2 '/'
        let body3 := if anch1 then String.mk (body2.data.drop 1) else body2
        let segStrs := splitSlashStr body3
        let anchored := anch1 || decide (1 < segStrs.length)
        some ⟨neg, dirOnly, anchored,
          segStrs.map (fun s => if s = "**" then GSeg.star2 else GSeg.lit s.data)⟩

def fromLines (lines : List String) : List GPat := lines.filterMap parseLine

/-- `PathSpec.match_file` on pre-split components: the last matching
pattern decides (a negated pattern un-matches); no match means `false`. -/
def matchFile (ps : List GPat) (comps : List String) : Bool :=
  ps.foldl (fun acc q => if rawMatch q comps then !q.neg else acc) false

/-- `PathSpec.match_file` on a path string. -/
def matchStr (ps : List GPat) (s : String) : Bool :=
  matchFile ps (splitSlashStr s)

/-! ## Binary detection (`is_binary_file`, lines 44-74)

A file is a path plus `some bytes`, or `none` when opening/reading it
raises (`except Exception` paths in the source). -/

structure FileEntry where
  path : APath
  data? : Option (List Nat)
deriving DecidableEq

/-- The byte test on line 64 of the source:
`9 <= byte <= 13 or 32 <= byte <= 126 or byte >= 128`. -/
def textyByte (b : Nat) : Bool :=
  (9 ≤ b && b ≤ 13) || (32 ≤ b && b ≤ 126) || 128 ≤ b

/-- The pure core of `is_binary_file` acting on the sampled chunk.
The float comparison `non_text / len > 0.3` is modelled exactly as
`10 * non_text > 3 * len` (they agree for all chunk lengths up to 8192,
including at the exact threshold). -/
def isBinarySample (chunk : List Nat) : Bool :=
  if chunk.isEmpty then false
  else if chunk.contains 0 then true
  else
    let nonText := (chunk.filter (fun b => !textyByte b)).length
    if 0 < chunk.length && 10 * nonText > 3 * chunk.length then true else false

/-- `is_binary_file(file_path, sample_size=8192)`: reads at most an 8 KiB
prefix; an unreadable file is conservatively classified binary. -/
def is_binary_file (f : FileEntry) : Bool :=
  match f.data? with
  | none => true
  | some bs => isBinarySample (bs.take 8192)

/-! ## Extension and lockfile filtering (`should_include_file`, lines 204-230) -/

def DEFAULT_BINARY_EXTENSIONS : List String :=
  [".png", ".jpg", ".jpeg", ".gif", ".bmp", ".ico", ".tif", ".tiff", ".webp",
   ".svg", ".psd", ".ai", ".eps", ".raw", ".cr2", ".nef", ".heic", ".avif",
   ".mp3", ".wav", ".flac", ".ogg", ".m4a", ".aac", ".wma", ".mp4", ".mov",
   ".avi", ".mkv", ".flv", ".wmv", ".webm", ".m4v", ".mpg", ".mpeg", ".3gp",
   ".zip", ".tar", ".gz", ".rar", ".7z", ".bz2", ".xz", ".tgz", ".jar", ".war",
   ".ear", ".dmg", ".iso", ".apk", ".deb", ".rpm",
   ".pdf", ".doc", ".docx", ".xls", ".xlsx", ".ppt", ".pptx", ".odt", ".ods",
   ".odp", ".pages", ".numbers", ".key",
   ".pyc", ".pyo", ".so", ".dll", ".exe", ".o", ".a", ".lib", ".dylib",
   ".class", ".bin", ".dat", ".out",
   ".db", ".sqlite", ".sqlite3", ".mdb", ".accdb",
   ".ttf", ".otf", ".woff", ".woff2", ".eot",
   ".blend", ".fbx", ".obj", ".stl", ".3ds", ".dae", ".dwg", ".dxf",
   ".DS_Store", ".lock", ".pack", ".idx", ".sample"]

def lockfilePatterns : List String :=
  ["package-lock.json", "yarn.lock", "pnpm-lock.yaml", "poetry.lock",
   "pipfile.lock", "gemfile.lock", "composer.lock", "cargo.lock",
   "go.sum", "pom.xml.asc"]

/-- `PurePath.name`: the final component (empty for `/` and `.`). -/
def basename (p : APath) : String := p.comps.getLast?.getD ""

/-- `PurePath.suffix` applied to a name: the part from the last dot, but
only when that dot is neither the first nor the last character. -/
def pySuffix (name : String) : String :=
  let cs := name.data
  match ((List.range cs.length).filter (fun i => cs.getD i ' ' = '.')).getLast? with
  | some i => if 0 < i && i < cs.length - 1 then String.mk (cs.drop i) else ""
  | none => ""

/-- `str.lower` (the extensions involved are ASCII). -/
def lowerStr (s : String) : String := String.mk (s.data.map Char.toLower)

/-- `should_include_file(file_path, no_binary_filter, use_extension_filter)`. -/
def should_include_file (f : FileEntry) (no_binary_filter use_extension_filter : Bool) :
    Bool :=
  if no_binary_filter then true
  else if DEFAULT_BINARY_EXTENSIONS.contains (lowerStr (pySuffix (basename f.path))) then
    false
  else if lockfilePatterns.contains (lowerStr (basename f.path)) then false
  else if use_extension_filter then true
  else !is_binary_file f

/-! ## Lossy text decoding

`read_text(encoding='utf-8', errors='ignore')`: UTF-8 decoding that skips
invalid bytes (overlong forms, surrogates and stray continuation bytes are
dropped, never raising). -/

/-- Decoder state: either between characters, or expecting `pending` more
continuation bytes for a partially read code point `acc`, the next byte
having to lie in `[lo, hi]` (the narrowed ranges reject overlong forms,
surrogates and values beyond U+10FFFF, as CPython does). -/
inductive Utf8State where
  | start
  | expect (pending acc lo hi : Nat)

/-- Process one byte in the between-characters state: ASCII is emitted,
a lead byte opens a multi-byte sequence, anything else is dropped. -/
def utf8Lead (b : Nat) : Option Char × Utf8State :=
  if b < 128 then (some (Char.ofNat b), .start)
  else if 194 ≤ b && b ≤ 223 then (none, .expect 1 (b - 192) 128 191)
  else if 224 ≤ b && b ≤ 239 then
    (none, .expect 2 (b - 224) (if b = 224 then 160 else 128)
      (if b = 237 then 159 else 191))
  else if 240 ≤ b && b ≤ 244 then
    (none, .expect 3 (b - 240) (if b = 240 then 144 else 128)
      (if b = 244 then 143 else 191))
  else (none, .start)

def utf8Aux : Utf8State → List Nat → List Char
  | _, [] => []
  | .start, b :: rest =>
    (match utf8Lead b with
     | (some c, st) => c :: utf8Aux st rest
     | (none, st) => utf8Aux st rest)
  | .expect pending acc lo hi, b :: rest =>
    if lo ≤ b && b ≤ hi then
      match pending with
      | 0 => utf8Aux .start rest
      | 1 => Char.ofNat (acc * 64 + (b - 128)) :: utf8Aux .start rest
      | p + 2 => utf8Aux (.expect (p + 1) (acc * 64 + (b - 128)) 128 191) rest
    else
      -- invalid continuation: drop the partial character and restart at
      -- this byte (CPython resynchronises at the offending byte)
      (match utf8Lead b with
       | (some c, st) => c :: utf8Aux st rest
       | (none, st) => utf8Aux st rest)

def utf8DecodeIgnore (bs : List Nat) : List Char := utf8Aux .start bs

/-- `Path.read_text(encoding='utf-8', errors='ignore')`: `none` when the
read raises an `OSError`, otherwise the lossily decoded text. -/
def readText? (f : FileEntry) : Option String :=
  f.data?.map (fun bs => String.mk (utf8DecodeIgnore bs))

/-! ## `is_ignored` (lines 147-202) -/

/-- The gitignore cache (`gitignore_cache`): directory paths mapped to
compiled pattern lists. -/
def GitCache := List (APath × List GPat)

def cacheFind (c : GitCache) (k : APath) : Option (List GPat) :=
  match c with
  | [] => none
  | e :: rest => if e.1 = k then some e.2 else cacheFind rest k

/-- `is_ignored(path, gitignore_cache, search_root, exclude_spec,
include_spec)`.  Each of the three checks matches the path relative to the
search root, falling back to the absolute path string when the path is not
under the search root (`ValueError` branches); the gitignore loop is
skipped entirely in that case.  The gitignore loop checks the spec cached
at the search root and at every intermediate ancestor directory, each
against the path made relative to that directory. -/
def is_ignored (p : APath) (cache : GitCache) (search_root : APath)
    (exclude_spec : List GPat) (include_spec : Option (List GPat)) : Bool :=
  let exM :=
    match relativeTo? p search_root with
    | some rel => matchStr exclude_spec (pathStr (relP rel))
    | none => matchStr exclude_spec (pathStr p)
  if exM then true
  else
    let gitM :=
      match relativeTo? p search_root with
      | some rel =>
        (match cacheFind cache search_root with
         | some spec => matchStr spec (pathStr (relP rel))
         | none => false) ||
        (parentsAux rel).any (fun par =>
          if par = [] then false
          else
            match cacheFind cache ⟨search_root.isAbs, search_root.comps ++ par⟩ with
            | some spec => matchStr spec (pathStr (relP (rel.drop par.length)))
            | none => false)
      | none => false
    if gitM then true
    else
      match include_spec with
      | some inc =>
        (match relativeTo? p search_root with
         | some rel => !matchStr inc (pathStr (relP rel))
         | none => !matchStr inc (pathStr p))
      | none => false

/-! ## Path ordering

`sorted` over `Path` values compares the component tuples (`PurePath`
ordering; an absolute path carries `/` as its first part). -/

def partsOf (p : APath) : List String := if p.isAbs then "/" :: p.comps else p.comps

/-- Code-point comparison of strings (Python string `<`). -/
def charListLtB : List Char → List Char → Bool
  | [], [] => false
  | [], _ :: _ => true
  | _ :: _, [] => false
  | a :: as, b :: bs => if a = b then charListLtB as bs else decide (a.toNat < b.toNat)

def strLtB (a b : String) : Bool := charListLtB a.data b.data

def listLeB : List String → List String → Bool
  | [], _ => true
  | _ :: _, [] => false
  | x :: xs, y :: ys => if x = y then listLeB xs ys else strLtB x y

def pathLeB (a b : APath) : Bool := listLeB (partsOf a) (partsOf b)

def pathLe (a b : APath) : Prop := pathLeB a b = true

instance : DecidableRel pathLe := fun a b => inferInstanceAs (Decidable (_ = true))

def entryLe (a b : FileEntry) : Prop := pathLeB a.path b.path = true

instance : DecidableRel entryLe := fun a b => inferInstanceAs (Decidable (_ = true))

/-! ## The filesystem model and `collect_files` (lines 233-296)

A directory root is modelled flatly: the set of files beneath it (paths
relative to the root, with their bytes) and the `.gitignore` files present
(keyed by relative directory, `[]` being the root directory itself, each
with its lines).  `os.walk` with in-place pruning (lines 268-294) selects
a file exactly when none of the directories strictly between the search
root and the file was pruned as ignored and the file itself passes
`is_ignored` and `should_include_file`; at the moment a path is tested,
`gitignore_cache` holds the specs of precisely the search root and the
already-visited ancestor directories of that path (entries for visited
sibling subtrees are never consulted, since `is_ignored` only looks up the
search root and the path's own ancestors). -/

structure DirFS where
  files : List (List String × Option (List Nat))
  gitignores : List (List String × List String)
deriving DecidableEq

inductive RootEntry where
  | fileRoot (data? : Option (List Nat)) (parentGitignore? : Option (List String))
  | dirRoot (fs : DirFS)
deriving DecidableEq

/-- One element of `paths`: its resolved absolute components and what the
filesystem holds there. -/
structure Root where
  startAbs : List String
  entry : RootEntry
deriving DecidableEq

/-- All prefixes of a component list, shortest first, including `[]` and
the list itself. -/
def prefixesUpto (cs : List String) : List (List String) :=
  (List.range (cs.length + 1)).map (fun k => cs.take k)

def lookupGitignore : List (List String × List String) → List String → Option (List String)
  | [], _ => none
  | e :: rest, d => if e.1 = d then some e.2 else lookupGitignore rest d

/-- The gitignore cache visible when the walk tests the path at relative
position `p`: the specs of the ancestor directories of `p` (root
included), unless `.gitignore` processing is disabled. -/
def dirCacheFor (ng : Bool) (startAbs : List String) (fs : DirFS) (p : List String) :
    GitCache :=
  if ng then []
  else
    (prefixesUpto p.dropLast).filterMap (fun d =>
      (lookupGitignore fs.gitignores d).map
        (fun L => ((⟨true, startAbs ++ d⟩ : APath), fromLines L)))

/-- Whether the walk keeps the file at relative path `p`: every strictly
intermediate directory survives its pruning test, and the file passes
`is_ignored` and `should_include_file`. -/
def fileCollected (ng nbf uef : Bool) (ex : List GPat) (inc : Option (List GPat))
    (startAbs : List String) (fs : DirFS) (e : List String × Option (List Nat)) : Bool :=
  let sr : APath := ⟨true, startAbs⟩
  (prefixesUpto e.1.dropLast).all (fun d =>
    d.isEmpty || !is_ignored ⟨true, startAbs ++ d⟩ (dirCacheFor ng startAbs fs d) sr ex inc) &&
  !is_ignored ⟨true, startAbs ++ e.1⟩ (dirCacheFor ng startAbs fs e.1) sr ex inc &&
  should_include_file ⟨⟨true, startAbs ++ e.1⟩, e.2⟩ nbf uef

/-- `collect_files` restricted to one root: the single-file branch
(lines 261-265, with the root-level `.gitignore` preloaded from the
parent) or the directory walk. -/
def collectRoot (ng nbf uef : Bool) (ex : List GPat) (inc : Option (List GPat)) (r : Root) :
    List FileEntry :=
  match r.entry with
  | .fileRoot d pg =>
    let sr : APath := ⟨true, r.startAbs.dropLast⟩
    let cache : GitCache :=
      if ng then []
      else match pg with
        | some L => [(sr, fromLines L)]
        | none => []
    let p : APath := ⟨true, r.startAbs⟩
    if !is_ignored p cache sr ex inc && should_include_file ⟨p, d⟩ nbf uef then [⟨p, d⟩]
    else []
  | .dirRoot fs =>
    (fs.files.filter (fileCollected ng nbf uef ex inc r.startAbs fs)).map
      (fun e => ⟨⟨true, r.startAbs ++ e.1⟩, e.2⟩)

/-- Set-formation of `all_files`: drop duplicate entries. -/
def dedupFE : List FileEntry → List FileEntry
  | [] => []
  | x :: xs => if x ∈ xs then dedupFE xs else x :: dedupFE xs

/-- `collect_files(paths, include, exclude, no_gitignore, no_binary_filter,
use_extension_filter)`: union over the roots, deduplicated (`all_files` is
a set) and sorted. -/
def collect_files (roots : List Root) (includeLines excludeLines : List String)
    (ng nbf uef : Bool) : List FileEntry :=
  let ex := fromLines excludeLines
  let inc := if includeLines.isEmpty then none else some (fromLines includeLines)
  List.insertionSort entryLe (dedupFE (roots.flatMap (collectRoot ng nbf uef ex inc)))

/-! ## `analyze_content_sizes` (lines 299-327)

`len(content)` on a Python `str` counts characters (code points), so sizes
are `String.length`; the float comparison `size / total * 100 > 35` is
modelled exactly as `100 * size > 35 * total` (they agree at every integer
ratio arising from realistic totals, including exact threshold hits). -/

def LARGE_CONTENT_THRESHOLD_PERCENT : Nat := 35

/-- `defaultdict(int)` accumulation: add `v` at key `k`. -/
def addSize : List (APath × Nat) → APath → Nat → List (APath × Nat)
  | [], k, v => [(k, v)]
  | e :: rest, k, v => if e.1 = k then (e.1, e.2 + v) :: rest else e :: addSize rest k v

/-- Lookup with the `defaultdict` default `0`. -/
def sizeAt : List (APath × Nat) → APath → Nat
  | [], _ => 0
  | e :: rest, k => if e.1 = k then e.2 else sizeAt rest k

/-- The body of the accumulation loop (lines 305-314) for one
`(path, content)` entry. -/
def accumEntry (common_root : APath) (m : List (APath × Nat)) (pc : APath × String) :
    List (APath × Nat) :=
  let size := pc.2.length
  match relativeTo? pc.1 common_root with
  | some rel =>
    (parentsAux rel).foldl
      (fun acc par => if pathStr (relP par) ≠ "." then addSize acc (relP par) size else acc)
      (addSize m (relP rel) size)
  | none => addSize m pc.1 size

def item_sizes (fc : List (APath × String)) (common_root : APath) : List (APath × Nat) :=
  fc.foldl (accumEntry common_root) []

def totalSize (fc : List (APath × String)) : Nat :=
  (fc.map (fun e => e.2.length)).sum

/-- `analyze_content_sizes(file_contents, common_root)`. -/
def analyze_content_sizes (fc : List (APath × String)) (common_root : APath) :
    List APath :=
  let total := totalSize fc
  if total = 0 then []
  else
    let items := item_sizes fc common_root
    let pot :=
      (items.filter (fun e =>
        decide (100 * e.2 > LARGE_CONTENT_THRESHOLD_PERCENT * total))).map Prod.fst
    let fin := pot.filter (fun p => (pathParents p).all (fun par => !pot.contains par))
    List.insertionSort pathLe fin

/-! ## The regeneration loop (`cli`, lines 343-377)

The operator always confirming re-exclusion (the situation of the
convergence claim), one loop iteration either stops — empty selection, a
read error aborting the run at the dict comprehension on line 360, or no
offender — or extends the exclude list with the offender path strings and
goes round again. -/

def lcp : List String → List String → List String
  | [], _ => []
  | _ :: _, [] => []
  | x :: xs, y :: ys => if x = y then x :: lcp xs ys else []

/-- `os.path.commonpath` on absolute component lists (for a single path it
is the path itself). -/
def commonPathList : List (List String) → List String
  | [] => []
  | h :: t => t.foldl lcp h

/-- The dict comprehension on line 360: stops at the first file whose
`read_text` raises. -/
def readContents : List FileEntry → Except APath (List (APath × String))
  | [] => .ok []
  | f :: fs =>
    match readText? f with
    | none => .error f.path
    | some s => (readContents fs).map (fun rest => (f.path, s) :: rest)

structure RunCfg where
  roots : List Root
  includeLines : List String
  userExclude : List String
  no_gitignore : Bool
  no_binary_filter : Bool
  use_extension_filter : Bool
deriving DecidableEq

def selectFiles (cfg : RunCfg) (ex : List String) : List FileEntry :=
  collect_files cfg.roots cfg.includeLines ex cfg.no_gitignore cfg.no_binary_filter
    cfg.use_extension_filter

inductive StepRes where
  | readError (p : APath)
  | empty
  | done (files : List FileEntry) (contents : List (APath × String))
  | again (newExclude : List String)
deriving DecidableEq

/-- One iteration of the `while True` loop with a confirming operator. -/
def iterateOnce (cfg : RunCfg) (ex : List String) : StepRes :=
  let files := selectFiles cfg ex
  if files.isEmpty then .empty
  else
    match readContents files with
    | .error p => .readError p
    | .ok contents =>
      let common : APath := ⟨true, commonPathList (files.map (fun f => f.path.comps))⟩
      let large := analyze_content_sizes contents common
      if large.isEmpty then .done files contents
      else .again (ex ++ large.map pathStr)

/-- Lines 349-351: `.git/` and `.git/**` are appended to the user excludes
unconditionally, before the first selection. -/
def cliInitExclude (userExclude : List String) : List String :=
  userExclude ++ [".git/", ".git/**"]

/-- The exclude list at the start of iteration `n` (constant once a
terminal step is reached). -/
def excludeAt (cfg : RunCfg) : Nat → List String
  | 0 => cliInitExclude cfg.userExclude
  | n + 1 =>
    match iterateOnce cfg (excludeAt cfg n) with
    | .again e => e
    | _ => excludeAt cfg n

def selectAt (cfg : RunCfg) (n : Nat) : List FileEntry := selectFiles cfg (excludeAt cfg n)

def isAgain : StepRes → Bool
  | .again _ => true
  | _ => false

/-- Iteration `n` leaves the loop (empty selection, read error, or no
offender above the threshold). -/
def terminalAt (cfg : RunCfg) (n : Nat) : Bool :=
  !isAgain (iterateOnce cfg (excludeAt cfg n))

/-! ## Rendering (`add_line_numbers`, lines 113-116) -/

/-- The line-break characters recognised by `str.splitlines`. -/
def isLineBreak (c : Char) : Bool :=
  c = '\n' || c = '\r' || c = '\x0B' || c = '\x0C' || c = '\x1C' || c = '\x1D' ||
    c = '\x1E' || c = '\x85' || c = '\u2028' || c = '\u2029'

def pySplitlinesChars : List Char → List (List Char)
  | [] => []
  | [c] => if isLineBreak c then [[]] else [[c]]
  | c :: c2 :: rest =>
    if c = '\r' && c2 = '\n' then [] :: pySplitlinesChars rest
    else if isLineBreak c then [] :: pySplitlinesChars (c2 :: rest)
    else
      match pySplitlinesChars (c2 :: rest) with
      | [] => [[c]]
      | l :: ls => (c :: l) :: ls

/-- `str.splitlines()`. -/
def pySplitlines (s : String) : List String := (pySplitlinesChars s.data).map String.mk

/-- `"\n".join`. -/
def joinNl : List String → String
  | [] => ""
  | [l] => l
  | l :: ls => l ++ "\n" ++ joinNl ls

/-- `str.rjust`: left-pad with spaces to the given width. -/
def rjustStr (w : Nat) (s : String) : String :=
  String.mk (List.replicate (w - s.data.length) ' ') ++ s

/-- `add_line_numbers(content)`: 1-based numbers right-aligned to the
width of the largest line number (`len(str(len(lines)))`), separator
`" | "`. -/
def add_line_numbers (content : String) : String :=
  let lines := pySplitlines content
  let max_digits := (Nat.repr lines.length).length
  joinNl (lines.enum.map (fun e => rjustStr max_digits (Nat.repr (e.1 + 1)) ++ " | " ++ e.2))

/-- Split a rendered document into its lines (at `'\n'` only, which is the
separator `join` inserted; an empty document has no lines). -/
def splitNlChars : List Char → List (List Char)
  | [] => [[]]
  | c :: rest =>
    if c = '\n' then [] :: splitNlChars rest
    else
      match splitNlChars rest with
      | [] => [[c]]
      | l :: ls => (c :: l) :: ls

/-- Strip the fixed-width number-plus-separator prefix from every rendered
line, recovering the content lines. -/
def parseNumbered (rendered : String) (w : Nat) : List String :=
  if rendered.data.isEmpty then []
  else (splitNlChars rendered.data).map (fun l => String.mk (l.drop (w + 3)))

/-! ## Well-formedness of the modelled filesystem

Ordinary POSIX file names: nonempty, no slash, not `.` or `..`, and not
starting with the gitignore metacharacters `!` or `#`. -/

def goodName (s : String) : Bool :=
  s ≠ "" && !s.data.contains '/' && s ≠ "." && s ≠ ".." && !strStarts s '!' &&
    !strStarts s '#'

/-- No listed file path is a prefix of another (files are leaves: a path
cannot be both a file and a directory), and no duplicates. -/
def antichainB : List (List String) → Bool
  | [] => true
  | p :: ps => ps.all (fun q => !p.isPrefixOf q && !q.isPrefixOf p) && antichainB ps

def wfDirFS (fs : DirFS) : Bool :=
  fs.files.all (fun e => !e.1.isEmpty && e.1.all goodName) &&
    antichainB (fs.files.map Prod.fst)

def wfRoot (r : Root) : Bool :=
  r.startAbs.all goodName &&
    (match r.entry with
     | .fileRoot _ _ => !r.startAbs.isEmpty
     | .dirRoot fs => wfDirFS fs)

def wfCfg (cfg : RunCfg) : Bool := cfg.roots.all wfRoot

/-! ## Spec-side definitions (used to compare the code against the claims) -/

/-- The texty byte set exactly as the claim words it: printable ASCII
32-126, tab, newline, carriage return, or bytes with the high bit set. -/
def textySpecClaim (b : Nat) : Prop :=
  b = 9 ∨ b = 10 ∨ b = 13 ∨ (32 ≤ b ∧ b ≤ 126) ∨ 128 ≤ b

instance : DecidablePred textySpecClaim := fun b =>
  inferInstanceAs (Decidable (b = 9 ∨ b = 10 ∨ b = 13 ∨ (32 ≤ b ∧ b ≤ 126) ∨ 128 ≤ b))

/-- The texty byte set as the code has it: the whole range 9-13 (tab,
newline, vertical tab, form feed, carriage return), printable ASCII, or
bytes with the high bit set. -/
def textySpecAmended (b : Nat) : Prop :=
  (9 ≤ b ∧ b ≤ 13) ∨ (32 ≤ b ∧ b ≤ 126) ∨ 128 ≤ b

instance : DecidablePred textySpecAmended := fun b =>
  inferInstanceAs (Decidable ((9 ≤ b ∧ b ≤ 13) ∨ (32 ≤ b ∧ b ≤ 126) ∨ 128 ≤ b))

/-- Whether one collected file contributes its size to the map key `k`
(spec reading of the accumulation loop): to its own relative path, and to
every ancestor directory except `'.'`; a path outside the common root
contributes only to its absolute self. -/
def contributesTo (common_root p k : APath) : Prop :=
  match relativeTo? p common_root with
  | some rel =>
    k = relP rel ∨
      (k.isAbs = false ∧ pathStr (relP k.comps) ≠ "." ∧ k.comps.isPrefixOf rel = true ∧
        k.comps ≠ rel)
  | none => k = p

instance (common_root p k : APath) : Decidable (contributesTo common_root p k) := by
  unfold contributesTo
  cases relativeTo? p common_root with
  | none => exact inferInstanceAs (Decidable (k = p))
  | some rel =>
    exact inferInstanceAs (Decidable (_ ∨ (_ ∧ _ ∧ _ ∧ _)))

/-! ## Concrete instances used by counterexamples and witnesses -/

/-- A file of ten vertical-tab bytes: the code classifies it as text. -/
def fVT : FileEntry := ⟨absP ["v.bin"], some (List.replicate 10 11)⟩

/-- A readable file followed by an unreadable one. -/
def lC3 : List FileEntry :=
  [⟨absP ["r", "a.txt"], some [104, 105]⟩, ⟨absP ["r", "b.bin"], none⟩]

/-- Contents in which directory `d` holds 90 of 100 characters and its
file `d/big` holds 80. -/
def fcC2 : List (APath × String) :=
  [(absP ["r", "d", "big"], String.mk (List.replicate 80 'x')),
   (absP ["r", "d", "small"], String.mk (List.replicate 10 'x')),
   (absP ["r", "top"], String.mk (List.replicate 10 'x'))]

/-- A one-file content map whose text is a single two-byte character. -/
def fcU : List (APath × String) := [(absP ["r", "f"], "é")]

/-- A run over a directory containing a single five-byte file, with the
operator confirming every exclusion. -/
def cfg1 : RunCfg :=
  ⟨[⟨["r"], .dirRoot ⟨[(["f.txt"], some [104, 101, 108, 108, 111])], []⟩⟩],
    [], [], true, true, false⟩

/-- A run over a directory with `big.txt` (8 bytes) and `small.txt`
(2 bytes): one confirmed exclusion, then termination. -/
def cfgT : RunCfg :=
  ⟨[⟨["r"], .dirRoot ⟨[(["big.txt"], some (List.replicate 8 120)),
      (["small.txt"], some (List.replicate 2 120))], []⟩⟩],
    [], [], true, true, false⟩

/-- A run whose tree hides files under `.git` directories at two levels. -/
def cfgG : RunCfg :=
  ⟨[⟨["r"], .dirRoot ⟨[([".git", "config"], some [104]),
      (["a", ".git", "x"], some [104]), (["a", "b.py"], some [104])], []⟩⟩],
    [], [], true, true, false⟩

/-- The compiled forms of the two forced exclude lines `.git/` and
`.git/**` (see `parse_git_dir` and `parse_git_star`). -/

def gitDirPat : GPat := ⟨false, true, false, [GSeg.lit ['.', 'g', 'i', 't']]⟩

def gitStarPat : GPat := ⟨false, false, true, [GSeg.lit ['.', 'g', 'i', 't'], GSeg.star2]⟩

/-! ## Supporting lemmas: the path order is total and transitive -/

theorem char_toNat_inj {a b : Char} (h : a.toNat = b.toNat) : a = b := by
  have ha := Char.ofNat_toNat a
  have hb := Char.ofNat_toNat b
  rw [← ha, ← hb, h]

theorem charListLtB_total {cs ds : List Char} (h : cs ≠ ds) :
    charListLtB cs ds = true ∨ charListLtB ds cs = true := by
  induction cs generalizing ds with
  | nil =>
    cases ds with
    | nil => exact absurd rfl h
    | cons d ds => left; rfl
  | cons c cs ih =>
    cases ds with
    | nil => right; rfl
    | cons d ds =>
      by_cases hc : c = d
      · subst hc
        have : cs ≠ ds := fun he => h (by rw [he])
        simpa [charListLtB] using ih this
      · have : c.toNat ≠ d.toNat := fun he => hc (char_toNat_inj he)
        rcases Nat.lt_or_ge c.toNat d.toNat with hlt | hge
        · left; simp [charListLtB, hc, hlt]
        · right
          have hdc : d.toNat < c.toNat := by omega
          simp only [charListLtB]
          rw [if_neg (fun he => hc he.symm)]
          simpa using hdc

theorem charListLtB_trans {a b c : List Char} (h1 : charListLtB a b = true)
    (h2 : charListLtB b c = true) : charListLtB a c = true := by
  induction a generalizing b c with
  | nil =>
    cases b with
    | nil => simp [charListLtB] at h1
    | cons y bs =>
      cases c with
      | nil => simp [charListLtB] at h2
      | cons z cs => rfl
  | cons x as ih =>
    cases b with
    | nil => simp [charListLtB] at h1
    | cons y bs =>
      cases c with
      | nil => simp [charListLtB] at h2
      | cons z cs =>
        by_cases hxy : x = y <;> by_cases hyz : y = z
        · subst hxy; subst hyz
          simp only [charListLtB, if_pos rfl] at h1 h2 ⊢
          exact ih h1 h2
        · subst hxy
          simp only [charListLtB, if_pos rfl] at h1
          simpa [charListLtB, hyz] using h2
        · subst hyz
          simp only [charListLtB, if_pos rfl] at h2
          simpa [charListLtB, hxy] using h1
        · simp only [charListLtB, if_neg hxy] at h1
          simp only [charListLtB, if_neg hyz] at h2
          have hlt : x.toNat < z.toNat := by
            have h1' : x.toNat < y.toNat := by simpa using h1
            have h2' : y.toNat < z.toNat := by simpa using h2
            omega
          have hxz : x ≠ z := by
            intro he; subst he
            have h1' : x.toNat < y.toNat := by simpa using h1
            have h2' : y.toNat < x.toNat := by simpa using h2
            omega
          simp [charListLtB, hxz, hlt]

theorem strLtB_total {x y : String} (h : x ≠ y) :
    strLtB x y = true ∨ strLtB y x = true := by
  have : x.data ≠ y.data := by
    intro he; apply h
    cases x with
    | mk dx =>
      cases y with
      | mk dy => simp only at he; rw [he]
  exact charListLtB_total this

theorem listLeB_total (u v : List String) : listLeB u v = true ∨ listLeB v u = true := by
  induction u generalizing v with
  | nil => left; cases v <;> rfl
  | cons x xs ih =>
    cases v with
    | nil => right; rfl
    | cons y ys =>
      by_cases hxy : x = y
      · subst hxy
        simpa [listLeB] using ih ys
      · rcases strLtB_total hxy with hl | hl
        · left; simp [listLeB, hxy, hl]
        · right
          simp only [listLeB]
          rw [if_neg (fun he => hxy he.symm)]
          exact hl

theorem listLeB_trans {u v w : List String} (h1 : listLeB u v = true)
    (h2 : listLeB v w = true) : listLeB u w = true := by
  induction u generalizing v w with
  | nil => cases w <;> rfl
  | cons x xs ih =>
    cases v with
    | nil => simp [listLeB] at h1
    | cons y vs =>
      cases w with
      | nil => simp [listLeB] at h2
      | cons z ws =>
        by_cases hxy : x = y <;> by_cases hyz : y = z
        · subst hxy; subst hyz
          simp only [listLeB, if_pos rfl] at h1 h2 ⊢
          exact ih h1 h2
        · subst hxy
          simp only [listLeB, if_pos rfl] at h1
          simpa [listLeB, hyz] using h2
        · subst hyz
          simp only [listLeB, if_pos rfl] at h2
          simpa [listLeB, hxy] using h1
        · simp only [listLeB, if_neg hxy] at h1
          simp only [listLeB, if_neg hyz] at h2
          have hlt : charListLtB x.data z.data = true := charListLtB_trans h1 h2
          have hxz : x ≠ z := by
            intro he; subst he
            have := charListLtB_trans h1 h2
            -- x < x is impossible
            have hirr : ∀ cs : List Char, charListLtB cs cs = false := by
              intro cs
              induction cs with
              | nil => rfl
              | cons a as ihc => simp [charListLtB, ihc]
            rw [hirr] at this
            exact Bool.false_ne_true this
          simp [listLeB, hxz, strLtB, hlt]

instance : IsTotal APath pathLe :=
  ⟨fun a b => listLeB_total (partsOf a) (partsOf b)⟩

instance : IsTrans APath pathLe :=
  ⟨fun _ _ _ h1 h2 => listLeB_trans h1 h2⟩

instance : IsTotal FileEntry entryLe :=
  ⟨fun a b => listLeB_total (partsOf a.path) (partsOf b.path)⟩

instance : IsTrans FileEntry entryLe :=
  ⟨fun _ _ _ h1 h2 => listLeB_trans h1 h2⟩

/-! ## Supporting lemmas: dedup and membership in `collect_files` -/

theorem mem_dedupFE {a : FileEntry} {l : List FileEntry} : a ∈ dedupFE l ↔ a ∈ l := by
  induction l with
  | nil => simp [dedupFE]
  | cons x xs ih =>
    by_cases hx : x ∈ xs
    · simp only [dedupFE, if_pos hx, ih]
      constructor
      · exact fun h => List.mem_cons_of_mem _ h
      · intro h
        rcases List.mem_cons.mp h with he | h
        · exact he ▸ hx
        · exact h
    · simp [dedupFE, if_neg hx, List.mem_cons, ih]

theorem nodup_dedupFE (l : List FileEntry) : (dedupFE l).Nodup := by
  induction l with
  | nil => simp [dedupFE]
  | cons x xs ih =>
    by_cases hx : x ∈ xs
    · simpa [dedupFE, if_pos hx] using ih
    · simp only [dedupFE, if_neg hx]
      exact List.Nodup.cons (fun h => hx (mem_dedupFE.mp h)) ih

theorem mem_collect_files {f : FileEntry} {roots : List Root}
    {includeLines excludeLines : List String} {ng nbf uef : Bool} :
    f ∈ collect_files roots includeLines excludeLines ng nbf uef ↔
      ∃ r ∈ roots,
        f ∈ collectRoot ng nbf uef (fromLines excludeLines)
          (if includeLines.isEmpty then none else some (fromLines includeLines)) r := by
  unfold collect_files
  rw [List.mem_insertionSort, mem_dedupFE, List.mem_flatMap]

/-! ## Claim C9 -/

/-- Claim C9: with the binary filter disabled, `should_include_file`
returns true for every file — the extension deny-list, the lockfile
basename list and content-based detection are all bypassed, so a `.png`
image and a `package-lock.json` (even an unreadable one) are selected. -/
theorem c9_no_binary_filter_includes_all :
    (∀ (f : FileEntry) (uef : Bool), should_include_file f true uef = true) ∧
    should_include_file ⟨absP ["r", "img.png"], some [1, 2, 3]⟩ true false = true ∧
    should_include_file ⟨absP ["r", "package-lock.json"], none⟩ true true = true :=
  ⟨fun _ _ => rfl, rfl, rfl⟩

/-! ## Claim C6 -/

/-- Claim C6: when the total size of the collected contents is zero (in
particular for an empty content map), `analyze_content_sizes` returns the
empty offender list via its early guard, so the percentage division is
never reached. -/
theorem c6_zero_total_empty_offenders (fc : List (APath × String)) (root : APath)
    (h : totalSize fc = 0) : analyze_content_sizes fc root = [] := by
  unfold analyze_content_sizes
  simp [h]

theorem c6_zero_total_empty_offenders_witness :
    totalSize [] = 0 ∧ analyze_content_sizes [] (absP ["r"]) = [] :=
  ⟨rfl, c6_zero_total_empty_offenders [] (absP ["r"]) rfl⟩

/-! ## Claim C4 -/

/-- Claim C4, counterexample: a sample of ten vertical-tab bytes (byte 11)
has all ten bytes outside the claim's texty set (tab, newline, carriage
return, 32-126, high bit), so by the claim the classifier must return
true (10 of 10 bytes is more than 30%); the code returns false, because
its range test `9 <= byte <= 13` also accepts vertical tab and form
feed. -/
theorem c4_binary_iff_counterexample :
    is_binary_file fVT = false ∧
    (List.replicate 10 11).countP (fun b => decide (¬textySpecClaim b)) = 10 ∧
    ((((List.replicate 10 11).countP (fun b => decide (¬textySpecClaim b))) : ℚ) /
        (List.replicate 10 11).length > 3 / 10) := by
  refine ⟨by decide, by decide, ?_⟩
  have h : (List.replicate 10 11).countP (fun b => decide (¬textySpecClaim b)) = 10 := by
    decide
  rw [h]
  norm_num

/-- Claim C4 as amended: `is_binary_file` reads at most an 8 KiB prefix,
returns false for an empty sample, true when the sample contains a null
byte, and otherwise returns true iff the bytes outside the texty set —
which is bytes 9-13 (tab, newline, vertical tab, form feed, carriage
return), printable ASCII 32-126 and bytes with the high bit set — exceed
30% of the sample. -/
theorem c4_binary_iff_amended (p : APath) (bs : List Nat) :
    is_binary_file ⟨p, some bs⟩ = true ↔
      (bs.take 8192 ≠ [] ∧
        (0 ∈ bs.take 8192 ∨
          (((bs.take 8192).countP (fun b => decide (¬textySpecAmended b)) : ℚ) /
              (bs.take 8192).length > 3 / 10))) := by
  set sample := bs.take 8192 with hs
  have hTexty : ∀ b, textyByte b = true ↔ textySpecAmended b := by
    intro b
    simp only [textyByte, textySpecAmended, Bool.or_eq_true, Bool.and_eq_true,
      decide_eq_true_eq]
    omega
  have hcount : (sample.filter (fun b => !textyByte b)).length =
      sample.countP (fun b => decide (¬textySpecAmended b)) := by
    rw [List.countP_eq_length_filter]
    congr 1
    apply List.filter_congr
    intro b _
    by_cases hb : textySpecAmended b
    · have ht : textyByte b = true := (hTexty b).mpr hb
      simp [ht, hb]
    · have ht : textyByte b = false := by
        cases htb : textyByte b
        · rfl
        · exact absurd ((hTexty b).mp htb) hb
      simp [ht, hb]
  have hstart : is_binary_file ⟨p, some bs⟩ = isBinarySample sample := rfl
  rw [hstart]
  have hratio : ∀ n L : Nat, 0 < L →
      (((n : ℚ) / (L : ℚ) > 3 / 10) ↔ 10 * n > 3 * L) := by
    intro n L hL
    rw [gt_iff_lt, div_lt_div_iff (by norm_num) (by exact_mod_cast hL)]
    constructor
    · intro h
      have h' : 3 * L < n * 10 := by exact_mod_cast h
      omega
    · intro h
      have h' : 3 * L < n * 10 := by omega
      exact_mod_cast h'
  unfold isBinarySample
  by_cases he : sample.isEmpty
  · have h0 : sample = [] := List.isEmpty_iff.mp he
    simp [he, h0]
  · have hne : sample ≠ [] := by simpa [List.isEmpty_iff] using he
    have hlen : 0 < sample.length := List.length_pos.mpr hne
    rw [if_neg (by simpa using he)]
    by_cases h0 : (0 : Nat) ∈ sample
    · rw [if_pos (List.elem_iff.mpr h0)]
      simp [hne, h0]
    · rw [if_neg (fun hc => h0 (List.elem_iff.mp hc))]
      simp only [hne, ne_eq, not_false_iff, true_and, h0, false_or]
      rw [hratio _ _ hlen, ← hcount]
      simp [hlen]

/-! ## Claim C10 -/

/-- Claim C10: for a path that is not a descendant of the search root
(`relative_to` raises), `is_ignored` matches the exclude and include
patterns against the absolute path string, and every gitignore check is
skipped — the result does not mention the cache at all. -/
theorem c10_outside_path_absolute_matching (p : APath) (cache : GitCache)
    (root : APath) (ex : List GPat) (inc : Option (List GPat))
    (h : relativeTo? p root = none) :
    is_ignored p cache root ex inc =
      (matchStr ex (pathStr p) ||
        (match inc with
         | some i => !matchStr i (pathStr p)
         | none => false)) := by
  unfold is_ignored
  rw [h]
  cases hm : matchStr ex (pathStr p)
  · cases inc <;> simp
  · simp

theorem c10_outside_path_absolute_matching_witness :
    relativeTo? (absP ["etc", "x"]) (absP ["home"]) = none ∧
      is_ignored (absP ["etc", "x"]) [(absP ["home"], fromLines ["*"])] (absP ["home"])
          (fromLines ["x"]) none =
        (matchStr (fromLines ["x"]) (pathStr (absP ["etc", "x"])) ||
          (match (none : Option (List GPat)) with
           | some i => !matchStr i (pathStr (absP ["etc", "x"]))
           | none => false)) :=
  ⟨rfl,
    c10_outside_path_absolute_matching (absP ["etc", "x"])
      [(absP ["home"], fromLines ["*"])] (absP ["home"]) (fromLines ["x"]) none rfl⟩

/-! ## Claim C3 -/

/-- Claim C3, counterexample: the content-read phase (the dict
comprehension on line 360 of the source) has no exception handling — with
a readable `a.txt` followed by an unreadable `b.bin`, the phase aborts
with the error instead of skipping the bad file and returning the partial
result the claim promises. -/
theorem c3_read_phase_counterexample :
    readContents lC3 = Except.error (absP ["r", "b.bin"]) ∧
      ∀ m, readContents lC3 ≠ Except.ok m := by
  refine ⟨rfl, ?_⟩
  intro m h
  rw [show readContents lC3 = Except.error (absP ["r", "b.bin"]) from rfl] at h
  exact Except.noConfusion h

/-- Claim C3 as amended: a selected file that cannot be read during the
content-read phase aborts the whole run (the exception from `read_text`
propagates out of the dict comprehension); unreadable files are only
skipped earlier, at selection time, where content-based binary detection
classifies them as binary and `should_include_file` rejects them. -/
theorem c3_read_phase_amended :
    (∀ (files : List FileEntry) (f : FileEntry), f ∈ files → f.data? = none →
      ∃ p, readContents files = Except.error p) ∧
    (∀ f : FileEntry, f.data? = none → should_include_file f false false = false) := by
  constructor
  · intro files
    induction files with
    | nil => intro f h; exact absurd h (List.not_mem_nil f)
    | cons g fs ih =>
      intro f hmem hnone
      rcases List.mem_cons.mp hmem with he | hm
      · subst he
        refine ⟨f.path, ?_⟩
        unfold readContents
        rw [show readText? f = none from by rw [readText?, hnone]; rfl]
      · cases hg : readText? g with
        | none => exact ⟨g.path, by unfold readContents; rw [hg]⟩
        | some s =>
          obtain ⟨p, hp⟩ := ih f hm hnone
          refine ⟨p, ?_⟩
          unfold readContents
          rw [hg, hp]
          rfl
  · intro f h
    unfold should_include_file
    have hb : is_binary_file f = true := by rw [is_binary_file, h]
    split
    · next hfalse => exact absurd hfalse (by simp)
    · split
      · rfl
      · split
        · rfl
        · simp [hb]

theorem c3_read_phase_amended_witness :
    ((⟨absP ["r", "b.bin"], none⟩ : FileEntry) ∈ lC3 ∧
      (∃ p, readContents lC3 = Except.error p)) ∧
      should_include_file ⟨absP ["r", "b.bin"], none⟩ false false = false :=
  ⟨⟨by decide, c3_read_phase_amended.1 lC3 ⟨absP ["r", "b.bin"], none⟩ (by decide) rfl⟩,
    c3_read_phase_amended.2 ⟨absP ["r", "b.bin"], none⟩ rfl⟩

/-! ## Supporting lemmas: the size-contribution map -/

theorem sizeAt_addSize (m : List (APath × Nat)) (k k' : APath) (v : Nat) :
    sizeAt (addSize m k v) k' = sizeAt m k' + (if k' = k then v else 0) := by
  induction m with
  | nil =>
    by_cases h : k = k' <;> simp [addSize, sizeAt, h, eq_comm]
  | cons e rest ih =>
    by_cases h1 : e.1 = k
    · rw [show addSize (e :: rest) k v = (e.1, e.2 + v) :: rest from by
        simp [addSize, h1]]
      by_cases h2 : e.1 = k'
      · have : k' = k := by rw [← h2, h1]
        simp [sizeAt, h2, this]
      · have : ¬k' = k := fun he => h2 (by rw [h1, he])
        simp [sizeAt, h2, this]
    · rw [show addSize (e :: rest) k v = e :: addSize rest k v from by
        simp [addSize, h1]]
      by_cases h2 : e.1 = k'
      · have : ¬k' = k := fun he => h1 (by rw [h2, he])
        simp [sizeAt, h2, this]
      · simp [sizeAt, h2, ih]

theorem mem_parentsAux {par cs : List String} :
    par ∈ parentsAux cs ↔ (par <+: cs ∧ par ≠ cs) := by
  unfold parentsAux
  simp only [List.mem_map, List.mem_reverse, List.mem_range]
  constructor
  · rintro ⟨k, hk, rfl⟩
    refine ⟨List.take_prefix k cs, ?_⟩
    intro he
    have := congrArg List.length he
    simp only [List.length_take] at this
    omega
  · rintro ⟨hpre, hne⟩
    have hle := hpre.length_le
    refine ⟨par.length, ?_, (List.prefix_iff_eq_take.mp hpre).symm⟩
    rcases Nat.lt_or_ge par.length cs.length with h | h
    · exact h
    · exact absurd (hpre.eq_of_length (le_antisymm hle h)) hne

theorem nodup_parentsAux (cs : List String) : (parentsAux cs).Nodup := by
  unfold parentsAux
  refine List.Nodup.map_on ?_ (List.nodup_reverse.mpr (List.nodup_range _))
  intro a ha b hb he
  simp only [List.mem_reverse, List.mem_range] at ha hb
  have := congrArg List.length he
  simpa [List.length_take, Nat.min_eq_left (le_of_lt ha),
    Nat.min_eq_left (le_of_lt hb)] using this

theorem sizeAt_foldl_parents (L : List (List String)) (hL : L.Nodup)
    (m0 : List (APath × Nat)) (size : Nat) (k : APath) :
    sizeAt (L.foldl (fun acc par =>
        if pathStr (relP par) ≠ "." then addSize acc (relP par) size else acc) m0) k =
      sizeAt m0 k +
        (if ∃ par ∈ L, pathStr (relP par) ≠ "." ∧ relP par = k then size else 0) := by
  induction L generalizing m0 with
  | nil => simp
  | cons par rest ih =>
    have hnd := List.nodup_cons.mp hL
    rw [List.foldl_cons, ih hnd.2]
    by_cases hc : pathStr (relP par) ≠ "."
    · rw [if_pos hc, sizeAt_addSize]
      by_cases hk : k = relP par
      · have hrest : ¬∃ q ∈ rest, pathStr (relP q) ≠ "." ∧ relP q = k := by
          rintro ⟨q, hq, _, hqk⟩
          apply hnd.1
          have hqp : q = par := by
            have : relP q = relP par := by rw [hqk, hk]
            simpa [relP, APath.mk.injEq] using this
          rwa [hqp] at hq
        have hall : ∃ q ∈ par :: rest, pathStr (relP q) ≠ "." ∧ relP q = k :=
          ⟨par, List.mem_cons_self _ _, hc, hk.symm⟩
        rw [if_neg hrest, if_pos hall, if_pos hk]
        omega
      · have hiff : (∃ q ∈ par :: rest, pathStr (relP q) ≠ "." ∧ relP q = k) ↔
            (∃ q ∈ rest, pathStr (relP q) ≠ "." ∧ relP q = k) := by
          constructor
          · rintro ⟨q, hq, hqc, hqk⟩
            rcases List.mem_cons.mp hq with he | hq'
            · exact absurd (he ▸ hqk).symm hk
            · exact ⟨q, hq', hqc, hqk⟩
          · rintro ⟨q, hq, hqc, hqk⟩
            exact ⟨q, List.mem_cons_of_mem _ hq, hqc, hqk⟩
        rw [if_neg hk, if_congr hiff rfl rfl]
        omega
    · rw [if_neg hc]
      have hiff : (∃ q ∈ par :: rest, pathStr (relP q) ≠ "." ∧ relP q = k) ↔
          (∃ q ∈ rest, pathStr (relP q) ≠ "." ∧ relP q = k) := by
        constructor
        · rintro ⟨q, hq, hqc, hqk⟩
          rcases List.mem_cons.mp hq with he | hq'
          · exact absurd (he ▸ hqc) hc
          · exact ⟨q, hq', hqc, hqk⟩
        · rintro ⟨q, hq, hqc, hqk⟩
          exact ⟨q, List.mem_cons_of_mem _ hq, hqc, hqk⟩
      rw [if_congr hiff rfl rfl]

theorem sizeAt_accumEntry (root : APath) (m : List (APath × Nat)) (pc : APath × String)
    (k : APath) :
    sizeAt (accumEntry root m pc) k =
      sizeAt m k + (if contributesTo root pc.1 k then pc.2.length else 0) := by
  have hsplit : relativeTo? pc.1 root = none ∨
      ∃ rel, relativeTo? pc.1 root = some rel := by
    cases relativeTo? pc.1 root with
    | none => exact Or.inl rfl
    | some rel => exact Or.inr ⟨rel, rfl⟩
  rcases hsplit with ho | ⟨rel, ho⟩
  · have he : accumEntry root m pc = addSize m pc.1 pc.2.length := by
      unfold accumEntry
      rw [ho]
    have hiff : contributesTo root pc.1 k ↔ k = pc.1 := by
      unfold contributesTo
      rw [ho]
    rw [he, sizeAt_addSize, if_congr hiff rfl rfl]
  · have he : accumEntry root m pc =
        (parentsAux rel).foldl
          (fun acc par =>
            if pathStr (relP par) ≠ "." then addSize acc (relP par) pc.2.length else acc)
          (addSize m (relP rel) pc.2.length) := by
      unfold accumEntry
      rw [ho]
    have hiff : contributesTo root pc.1 k ↔
        (k = relP rel ∨
          (k.isAbs = false ∧ pathStr (relP k.comps) ≠ "." ∧
            k.comps.isPrefixOf rel = true ∧ k.comps ≠ rel)) := by
      unfold contributesTo
      rw [ho]
    rw [he, sizeAt_foldl_parents _ (nodup_parentsAux rel), sizeAt_addSize,
      if_congr hiff rfl rfl]
    have hbridge : (∃ par ∈ parentsAux rel, pathStr (relP par) ≠ "." ∧ relP par = k) ↔
        (k.isAbs = false ∧ pathStr (relP k.comps) ≠ "." ∧ k.comps.isPrefixOf rel = true ∧
          k.comps ≠ rel) := by
      constructor
      · rintro ⟨par, hmem, hc, hk⟩
        obtain ⟨hpre, hne⟩ := mem_parentsAux.mp hmem
        cases hk
        exact ⟨rfl, hc, List.isPrefixOf_iff_prefix.mpr hpre, hne⟩
      · rintro ⟨habs, hc, hpre, hne⟩
        refine ⟨k.comps, mem_parentsAux.mpr ⟨List.isPrefixOf_iff_prefix.mp hpre, hne⟩,
          hc, ?_⟩
        cases k with
        | mk ab cm =>
          simp only at habs
          rw [habs]
          rfl
    by_cases h1 : k = relP rel
    · have hno : ¬(k.isAbs = false ∧ pathStr (relP k.comps) ≠ "." ∧
          k.comps.isPrefixOf rel = true ∧ k.comps ≠ rel) := by
        rintro ⟨_, _, _, hne⟩
        apply hne
        rw [h1]
        rfl
      rw [if_pos h1, if_neg (fun h => hno (hbridge.mp h)), if_pos (Or.inl h1)]
      omega
    · rw [if_neg h1, if_congr hbridge rfl rfl]
      by_cases h2 : k.isAbs = false ∧ pathStr (relP k.comps) ≠ "." ∧
          k.comps.isPrefixOf rel = true ∧ k.comps ≠ rel
      · rw [if_pos h2, if_pos (Or.inr h2)]
        omega
      · have hnor : ¬(k = relP rel ∨
            (k.isAbs = false ∧ pathStr (relP k.comps) ≠ "." ∧
              k.comps.isPrefixOf rel = true ∧ k.comps ≠ rel)) := by
          rintro (hl | hr)
          · exact h1 hl
          · exact h2 hr
        rw [if_neg h2, if_neg hnor]

theorem sizeAt_item_sizes (fc : List (APath × String)) (root k : APath) :
    sizeAt (item_sizes fc root) k =
      (fc.map (fun pc => if contributesTo root pc.1 k then pc.2.length else 0)).sum := by
  suffices h : ∀ m0, sizeAt (fc.foldl (accumEntry root) m0) k =
      sizeAt m0 k +
        (fc.map (fun pc => if contributesTo root pc.1 k then pc.2.length else 0)).sum by
    simpa [item_sizes, sizeAt] using h []
  induction fc with
  | nil => intro m0; simp
  | cons pc rest ih =>
    intro m0
    rw [List.foldl_cons, ih, sizeAt_accumEntry]
    simp only [List.map_cons, List.sum_cons]
    omega

/-- Every contribution is bounded by the total size. -/
theorem sizeAt_le_totalSize (fc : List (APath × String)) (root k : APath) :
    sizeAt (item_sizes fc root) k ≤ totalSize fc := by
  rw [sizeAt_item_sizes]
  unfold totalSize
  apply List.sum_le_sum
  intro pc _
  split
  · exact le_refl _
  · exact Nat.zero_le _

/-! ## Claim C5 -/

/-- Claim C5 as amended: for every content map, the contribution recorded
for a key `k` by the accumulation loop is the cumulative size of exactly
those entries that contain `k` — each entry adds its size to its own
relative path and to every ancestor directory below the common root (and
an entry outside the common root only to its own absolute path).  Sizes
are measured in characters of the decoded text (Python `len` on `str`),
not in bytes; see the counterexample. -/
theorem c5_contribution_characterization (fc : List (APath × String)) (root k : APath) :
    sizeAt (item_sizes fc root) k =
      (fc.map (fun pc => if contributesTo root pc.1 k then pc.2.length else 0)).sum :=
  sizeAt_item_sizes fc root k

/-- Claim C5, counterexample to the byte-size reading: a single file whose
content is the one-character string `é` (two bytes in UTF-8) contributes 1,
not 2 — `len(content)` counts characters of the decoded string, not
bytes. -/
theorem c5_char_not_byte_counterexample :
    sizeAt (item_sizes fcU (absP ["r"])) (relP ["f"]) = 1 ∧
      totalSize fcU = 1 ∧ String.utf8ByteSize "é" = 2 := by
  refine ⟨by decide, by decide, by decide⟩

/-! ## Supporting lemmas: keys of the contribution map -/

theorem keys_addSize {m : List (APath × Nat)} {k k' : APath} {v : Nat} :
    k' ∈ (addSize m k v).map Prod.fst ↔ k' ∈ m.map Prod.fst ∨ k' = k := by
  induction m with
  | nil => simp [addSize, eq_comm]
  | cons e rest ih =>
    by_cases h : e.1 = k
    · rw [show addSize (e :: rest) k v = (e.1, e.2 + v) :: rest from by simp [addSize, h]]
      simp only [List.map_cons, List.mem_cons]
      constructor
      · rintro (he | hm)
        · exact Or.inl (Or.inl he)
        · exact Or.inl (Or.inr hm)
      · rintro ((he | hm) | he)
        · exact Or.inl he
        · exact Or.inr hm
        · exact Or.inl (by rw [he, h])
    · rw [show addSize (e :: rest) k v = e :: addSize rest k v from by simp [addSize, h]]
      simp only [List.map_cons, List.mem_cons, ih]
      tauto

theorem nodup_keys_addSize {m : List (APath × Nat)} {k : APath} {v : Nat}
    (h : (m.map Prod.fst).Nodup) : ((addSize m k v).map Prod.fst).Nodup := by
  induction m with
  | nil => simp [addSize]
  | cons e rest ih =>
    rw [List.map_cons, List.nodup_cons] at h
    by_cases he : e.1 = k
    · rw [show addSize (e :: rest) k v = (e.1, e.2 + v) :: rest from by simp [addSize, he]]
      rw [List.map_cons, List.nodup_cons]
      exact ⟨h.1, h.2⟩
    · rw [show addSize (e :: rest) k v = e :: addSize rest k v from by simp [addSize, he]]
      rw [List.map_cons, List.nodup_cons]
      refine ⟨?_, ih h.2⟩
      intro hmem
      rcases keys_addSize.mp hmem with hm | hk
      · exact h.1 hm
      · exact he hk

theorem nodup_keys_item_sizes (fc : List (APath × String)) (root : APath) :
    ((item_sizes fc root).map Prod.fst).Nodup := by
  suffices h : ∀ m0 : List (APath × Nat), (m0.map Prod.fst).Nodup →
      ((fc.foldl (accumEntry root) m0).map Prod.fst).Nodup by
    exact h [] (by simp)
  induction fc with
  | nil => intro m0 h; simpa using h
  | cons pc rest ih =>
    intro m0 h
    rw [List.foldl_cons]
    apply ih
    have hsplit : relativeTo? pc.1 root = none ∨
        ∃ rel, relativeTo? pc.1 root = some rel := by
      cases relativeTo? pc.1 root with
      | none => exact Or.inl rfl
      | some rel => exact Or.inr ⟨rel, rfl⟩
    rcases hsplit with ho | ⟨rel, ho⟩
    · rw [show accumEntry root m0 pc = addSize m0 pc.1 pc.2.length from by
        unfold accumEntry; rw [ho]]
      exact nodup_keys_addSize h
    · rw [show accumEntry root m0 pc =
          (parentsAux rel).foldl
            (fun acc par =>
              if pathStr (relP par) ≠ "." then addSize acc (relP par) pc.2.length else acc)
            (addSize m0 (relP rel) pc.2.length) from by
        unfold accumEntry; rw [ho]]
      have hbase : ((addSize m0 (relP rel) pc.2.length).map Prod.fst).Nodup :=
        nodup_keys_addSize h
      generalize addSize m0 (relP rel) pc.2.length = m1 at hbase ⊢
      induction parentsAux rel generalizing m1 with
      | nil => exact hbase
      | cons par ps ihp =>
        rw [List.foldl_cons]
        apply ihp
        by_cases hc : pathStr (relP par) ≠ "."
        · rw [if_pos hc]; exact nodup_keys_addSize hbase
        · rw [if_neg hc]; exact hbase

theorem sizeAt_eq_of_mem {m : List (APath × Nat)} {k : APath} {v : Nat}
    (hnd : (m.map Prod.fst).Nodup) (hmem : (k, v) ∈ m) : sizeAt m k = v := by
  induction m with
  | nil => exact absurd hmem (List.not_mem_nil _)
  | cons e rest ih =>
    rw [List.map_cons, List.nodup_cons] at hnd
    rcases List.mem_cons.mp hmem with he | hm
    · rw [← he]
      simp [sizeAt]
    · have hne : e.1 ≠ k := by
        intro hek
        apply hnd.1
        rw [hek]
        exact List.mem_map.mpr ⟨(k, v), hm, rfl⟩
      simp only [sizeAt, if_neg hne]
      exact ih hnd.2 hm

theorem mem_of_sizeAt_pos {m : List (APath × Nat)} {k : APath}
    (h : 0 < sizeAt m k) : (k, sizeAt m k) ∈ m := by
  induction m with
  | nil => simp [sizeAt] at h
  | cons e rest ih =>
    by_cases he : e.1 = k
    · simp only [sizeAt, if_pos he]
      have : (k, e.2) = e := by
        rw [← he]
      rw [this]
      exact List.mem_cons_self _ _
    · simp only [sizeAt, if_neg he] at h ⊢
      exact List.mem_cons_of_mem _ (ih h)

theorem mem_pot_iff (fc : List (APath × String)) (root : APath) (t : Nat) (k : APath) :
    (k ∈ ((item_sizes fc root).filter
        (fun e => decide (100 * e.2 > LARGE_CONTENT_THRESHOLD_PERCENT * t))).map
          Prod.fst) ↔
      100 * sizeAt (item_sizes fc root) k > LARGE_CONTENT_THRESHOLD_PERCENT * t := by
  constructor
  · intro hmem
    obtain ⟨e, he, hek⟩ := List.mem_map.mp hmem
    obtain ⟨hmem', hpred⟩ := List.mem_filter.mp he
    have heq : sizeAt (item_sizes fc root) e.1 = e.2 :=
      sizeAt_eq_of_mem (nodup_keys_item_sizes fc root)
        (by rwa [show (e.1, e.2) = e from rfl])
    rw [← hek, heq]
    exact of_decide_eq_true hpred
  · intro hpred
    have hpos : 0 < sizeAt (item_sizes fc root) k := by omega
    exact List.mem_map.mpr
      ⟨(k, sizeAt (item_sizes fc root) k),
        List.mem_filter.mpr ⟨mem_of_sizeAt_pos hpos, decide_eq_true hpred⟩, rfl⟩

/-! ## Claim C2 -/

/-- Claim C2 as amended: `analyze_content_sizes` returns, sorted by path,
exactly those paths whose contribution strictly exceeds 35% of the total
and that have no ancestor whose contribution also exceeds 35% — the
outermost offending paths; in particular, when a directory contributes 90%
of the total and one of its files 80%, the returned set contains only the
directory and not the file (the `is_nearest` test keeps a culprit only
when none of its ancestors is a culprit). -/
theorem c2_offenders_amended :
    (∀ (fc : List (APath × String)) (root : APath),
      List.Sorted pathLe (analyze_content_sizes fc root) ∧
      ∀ k, k ∈ analyze_content_sizes fc root ↔
        (100 * sizeAt (item_sizes fc root) k >
            LARGE_CONTENT_THRESHOLD_PERCENT * totalSize fc ∧
          ∀ par ∈ pathParents k,
            ¬(100 * sizeAt (item_sizes fc root) par >
                LARGE_CONTENT_THRESHOLD_PERCENT * totalSize fc))) ∧
    analyze_content_sizes fcC2 (absP ["r"]) = [relP ["d"]] := by
  constructor
  · intro fc root
    by_cases ht : totalSize fc = 0
    · constructor
      · rw [c6_zero_total_empty_offenders fc root ht]
        exact List.sorted_nil
      · intro k
        rw [c6_zero_total_empty_offenders fc root ht, ht]
        simp only [List.not_mem_nil, false_iff, not_and]
        intro hk
        have := sizeAt_le_totalSize fc root k
        omega
    · unfold analyze_content_sizes
      rw [if_neg ht]
      constructor
      · exact List.sorted_insertionSort pathLe _
      · intro k
        rw [List.mem_insertionSort, List.mem_filter]
        constructor
        · rintro ⟨hpot, hall⟩
          refine ⟨(mem_pot_iff fc root (totalSize fc) k).mp hpot, ?_⟩
          intro par hpar hcontr
          have hparpot := (mem_pot_iff fc root (totalSize fc) par).mpr hcontr
          have hfalse := List.all_eq_true.mp hall par hpar
          rw [Bool.not_eq_true'] at hfalse
          have h2 : (((item_sizes fc root).filter
              (fun e => decide (100 * e.2 >
                LARGE_CONTENT_THRESHOLD_PERCENT * totalSize fc))).map
                Prod.fst).contains par = true := List.elem_iff.mpr hparpot
          rw [hfalse] at h2
          exact Bool.false_ne_true h2
        · rintro ⟨hk, hpars⟩
          refine ⟨(mem_pot_iff fc root (totalSize fc) k).mpr hk, ?_⟩
          rw [List.all_eq_true]
          intro par hpar
          rw [Bool.not_eq_true']
          cases hc : ((item_sizes fc root).filter
              (fun e => decide (100 * e.2 >
                LARGE_CONTENT_THRESHOLD_PERCENT * totalSize fc))).map Prod.fst
              |>.contains par
          · rfl
          · exact absurd ((mem_pot_iff fc root (totalSize fc) par).mp
              (List.elem_iff.mp hc)) (hpars par hpar)
  · decide

/-- Claim C2, counterexample to the nearest-offender reading: with
directory `d` at 90% and its file `d/big` at 80% of the total, the
returned set contains the directory and not the file — the opposite of
the claim's "contains only the file and not the directory". -/
theorem c2_nearest_offender_counterexample :
    relP ["d"] ∈ analyze_content_sizes fcC2 (absP ["r"]) ∧
      relP ["d", "big"] ∉ analyze_content_sizes fcC2 (absP ["r"]) ∧
      100 * sizeAt (item_sizes fcC2 (absP ["r"])) (relP ["d"]) = 90 * totalSize fcC2 ∧
      100 * sizeAt (item_sizes fcC2 (absP ["r"])) (relP ["d", "big"]) =
        80 * totalSize fcC2 := by
  refine ⟨by decide, by decide, by decide, by decide⟩

/-! ## Supporting lemmas: decimal representation length -/

theorem toDigitsCore_length_eq : ∀ (f n : Nat) (acc : List Char), n < 10 ^ f → 0 < f →
    (Nat.toDigitsCore 10 f n acc).length = acc.length + Nat.log 10 n + 1 := by
  intro f
  induction f with
  | zero => intro n acc _ h0; exact absurd h0 (by omega)
  | succ f ih =>
    intro n acc hlt _
    show (if n / 10 = 0 then _ :: acc
      else Nat.toDigitsCore 10 f (n / 10) (_ :: acc)).length = _
    by_cases hdiv : n / 10 = 0
    · rw [if_pos hdiv]
      have hn : n < 10 := by omega
      have : Nat.log 10 n = 0 := Nat.log_eq_zero_iff.mpr (Or.inl hn)
      simp [this]
    · rw [if_neg hdiv]
      have hge : 10 ≤ n := by
        by_contra hc
        exact hdiv (Nat.div_eq_of_lt (by omega))
      have hlt' : n / 10 < 10 ^ f := by
        rw [Nat.div_lt_iff_lt_mul (by norm_num)]
        calc n < 10 ^ (f + 1) := hlt
        _ = 10 ^ f * 10 := by ring
      have hf0 : 0 < f := by
        rcases Nat.eq_zero_or_pos f with hf | hf
        · subst hf
          simp only [pow_succ, pow_zero, one_mul] at hlt
          omega
        · exact hf
      rw [ih (n / 10) _ hlt' hf0]
      have hlog : Nat.log 10 (n / 10) = Nat.log 10 n - 1 := Nat.log_div_base 10 n
      have hpos : 0 < Nat.log 10 n := Nat.log_pos (by norm_num) hge
      simp only [List.length_cons]
      omega

theorem repr_length_eq (n : Nat) : (Nat.repr n).length = Nat.log 10 n + 1 := by
  have hlt : n < 10 ^ (n + 1) :=
    lt_of_lt_of_le (Nat.lt_pow_self (by norm_num) n)
      (Nat.pow_le_pow_right (by norm_num) (by omega))
  have := toDigitsCore_length_eq (n + 1) n [] hlt (by omega)
  simpa [Nat.repr, Nat.toDigits, String.length, List.asString] using this

theorem repr_length_mono {m n : Nat} (h : m ≤ n) :
    (Nat.repr m).length ≤ (Nat.repr n).length := by
  rw [repr_length_eq, repr_length_eq]
  have := Nat.log_mono_right (b := 10) h
  omega

theorem digitChar_not_break (m : Nat) : isLineBreak (Nat.digitChar m) = false := by
  rcases Nat.lt_or_ge m 16 with h | h
  · interval_cases m <;> decide
  · have hstar : Nat.digitChar m = '*' := by
      unfold Nat.digitChar
      repeat rw [if_neg (by omega)]
    rw [hstar]
    decide

theorem toDigitsCore_not_break : ∀ (f n : Nat) (acc : List Char),
    (∀ c ∈ acc, isLineBreak c = false) →
    ∀ c ∈ Nat.toDigitsCore 10 f n acc, isLineBreak c = false := by
  intro f
  induction f with
  | zero => intro n acc hacc c hc; exact hacc c hc
  | succ f ih =>
    intro n acc hacc c hc
    rw [show Nat.toDigitsCore 10 (f + 1) n acc =
        (if n / 10 = 0 then Nat.digitChar (n % 10) :: acc
         else Nat.toDigitsCore 10 f (n / 10) (Nat.digitChar (n % 10) :: acc)) from rfl]
      at hc
    have hacc' : ∀ c ∈ Nat.digitChar (n % 10) :: acc, isLineBreak c = false := by
      intro c hc'
      rcases List.mem_cons.mp hc' with he | hm
      · rw [he]; exact digitChar_not_break _
      · exact hacc c hm
    by_cases hdiv : n / 10 = 0
    · rw [if_pos hdiv] at hc
      exact hacc' c hc
    · rw [if_neg hdiv] at hc
      exact ih (n / 10) _ hacc' c hc

theorem repr_not_break (n : Nat) : ∀ c ∈ (Nat.repr n).data, isLineBreak c = false := by
  intro c hc
  have : (Nat.repr n).data = Nat.toDigitsCore 10 (n + 1) n [] := by
    simp [Nat.repr, Nat.toDigits, List.asString]
  rw [this] at hc
  exact toDigitsCore_not_break (n + 1) n [] (by intro c hc'; cases hc') c hc

/-! ## Supporting lemmas: splitting and joining lines -/

theorem data_append (a b : String) : (a ++ b).data = a.data ++ b.data := rfl

theorem splitNlChars_cons (c : Char) (rest : List Char) :
    splitNlChars (c :: rest) =
      (if c = '\n' then [] :: splitNlChars rest
       else
         match splitNlChars rest with
         | [] => [[c]]
         | l :: ls => (c :: l) :: ls) := rfl

theorem splitNl_no_nl {cs : List Char} (h : '\n' ∉ cs) : splitNlChars cs = [cs] := by
  induction cs with
  | nil => rfl
  | cons c rest ih =>
    have hc : c ≠ '\n' := fun he => h (he ▸ List.mem_cons_self _ _)
    have hrest : '\n' ∉ rest := fun hm => h (List.mem_cons_of_mem _ hm)
    rw [splitNlChars_cons, if_neg hc, ih hrest]

theorem splitNl_append {xs : List Char} (rest : List Char) (h : '\n' ∉ xs) :
    splitNlChars (xs ++ '\n' :: rest) = xs :: splitNlChars rest := by
  induction xs with
  | nil =>
    rw [List.nil_append, splitNlChars_cons, if_pos rfl]
  | cons c cs ih =>
    have hc : c ≠ '\n' := fun he => h (he ▸ List.mem_cons_self _ _)
    have hcs : '\n' ∉ cs := fun hm => h (List.mem_cons_of_mem _ hm)
    rw [List.cons_append, splitNlChars_cons, if_neg hc, ih hcs]

theorem pySplitlinesChars_two (c c2 : Char) (rest : List Char) :
    pySplitlinesChars (c :: c2 :: rest) =
      (if c = '\r' && c2 = '\n' then [] :: pySplitlinesChars rest
       else if isLineBreak c then [] :: pySplitlinesChars (c2 :: rest)
       else
         match pySplitlinesChars (c2 :: rest) with
         | [] => [[c]]
         | l :: ls => (c :: l) :: ls) := rfl

theorem no_break_of_mem_pySplitlinesChars (cs : List Char) :
    ∀ l ∈ pySplitlinesChars cs, ∀ c ∈ l, isLineBreak c = false := by
  suffices hmain : ∀ (n : Nat) (cs : List Char), cs.length ≤ n →
      ∀ l ∈ pySplitlinesChars cs, ∀ c ∈ l, isLineBreak c = false from
    hmain cs.length cs le_rfl
  intro n
  induction n with
  | zero =>
    intro cs hlen l hl
    rw [List.length_eq_zero.mp (Nat.le_zero.mp hlen)] at hl
    cases hl
  | succ n ih =>
    intro cs hlen l hl c hc
    match cs with
    | [] => cases hl
    | [ch] =>
      rw [show pySplitlinesChars [ch] = (if isLineBreak ch then [[]] else [[ch]]) from rfl]
        at hl
      by_cases hb : isLineBreak ch
      · rw [if_pos hb] at hl
        rcases List.mem_cons.mp hl with he | hm
        · rw [he] at hc; cases hc
        · cases hm
      · rw [if_neg hb] at hl
        rcases List.mem_cons.mp hl with he | hm
        · rw [he] at hc
          rcases List.mem_cons.mp hc with he2 | hm2
          · rw [he2]
            cases hx : isLineBreak ch
            · rfl
            · exact absurd hx hb
          · cases hm2
        · cases hm
    | ch :: c2 :: rest =>
      rw [pySplitlinesChars_two] at hl
      have hlen2 : (c2 :: rest).length ≤ n := by
        simp only [List.length_cons] at hlen ⊢
        omega
      have hlenr : rest.length ≤ n := by
        simp only [List.length_cons] at hlen ⊢
        omega
      by_cases hrn : (ch = '\r' && c2 = '\n') = true
      · rw [if_pos hrn] at hl
        rcases List.mem_cons.mp hl with he | hm
        · rw [he] at hc; cases hc
        · exact ih rest hlenr l hm c hc
      · rw [if_neg hrn] at hl
        by_cases hb : isLineBreak ch
        · rw [if_pos hb] at hl
          rcases List.mem_cons.mp hl with he | hm
          · rw [he] at hc; cases hc
          · exact ih (c2 :: rest) hlen2 l hm c hc
        · rw [if_neg hb] at hl
          have hbf : isLineBreak ch = false := by
            cases hx : isLineBreak ch
            · rfl
            · exact absurd hx hb
          cases hsp : pySplitlinesChars (c2 :: rest) with
          | nil =>
            rw [hsp] at hl
            rcases List.mem_cons.mp hl with he | hm
            · rw [he] at hc
              rcases List.mem_cons.mp hc with he2 | hm2
              · rw [he2]; exact hbf
              · cases hm2
            · cases hm
          | cons l0 ls0 =>
            rw [hsp] at hl
            rcases List.mem_cons.mp hl with he | hm
            · rw [he] at hc
              rcases List.mem_cons.mp hc with he2 | hm2
              · rw [he2]; exact hbf
              · exact ih (c2 :: rest) hlen2 l0
                  (by rw [hsp]; exact List.mem_cons_self _ _) c hm2
            · exact ih (c2 :: rest) hlen2 l
                (by rw [hsp]; exact List.mem_cons_of_mem _ hm) c hc

theorem rjust_data (w : Nat) (s : String) :
    (rjustStr w s).data = List.replicate (w - s.data.length) ' ' ++ s.data := rfl

theorem numbered_data (w : Nat) (s line : String) :
    (rjustStr w s ++ " | " ++ line).data =
      (List.replicate (w - s.data.length) ' ' ++ s.data ++ [' ', '|', ' ']) ++
        line.data := by
  rw [data_append, data_append, rjust_data]

theorem numbered_no_nl (w : Nat) (n : Nat) (line : String)
    (hline : ∀ ch ∈ line.data, isLineBreak ch = false) :
    '\n' ∉ (rjustStr w (Nat.repr n) ++ " | " ++ line).data := by
  rw [numbered_data]
  intro hmem
  rcases List.mem_append.mp hmem with hl | hr
  · rcases List.mem_append.mp hl with hl2 | hr2
    · rcases List.mem_append.mp hl2 with hl3 | hr3
      · exact absurd (List.eq_of_mem_replicate hl3) (by decide)
      · have := repr_not_break n _ hr3
        simp [isLineBreak] at this
    · exact absurd hr2 (by decide)
  · have := hline _ hr
    simp [isLineBreak] at this

theorem numbered_drop (w : Nat) (n : Nat) (line : String)
    (hlen : (Nat.repr n).data.length ≤ w) :
    (rjustStr w (Nat.repr n) ++ " | " ++ line).data.drop (w + 3) = line.data := by
  rw [numbered_data]
  have hplen : (List.replicate (w - (Nat.repr n).data.length) ' ' ++ (Nat.repr n).data ++
      [' ', '|', ' ']).length = w + 3 := by
    simp only [List.length_append, List.length_replicate, List.length_cons,
      List.length_nil]
    omega
  rw [← hplen, List.drop_left]

theorem joinNl_cons_data (x : String) (y : String) (ys : List String) :
    (joinNl (x :: y :: ys)).data = x.data ++ '\n' :: (joinNl (y :: ys)).data := by
  rw [show joinNl (x :: y :: ys) = x ++ "\n" ++ joinNl (y :: ys) from rfl]
  rw [data_append, data_append]
  simp

theorem numbered_round (w : Nat) :
    ∀ (ls : List String) (start : Nat),
      (∀ l ∈ ls, ∀ ch ∈ l.data, isLineBreak ch = false) →
      (∀ i : Nat, i < ls.length → (Nat.repr (start + i + 1)).data.length ≤ w) →
      ls ≠ [] →
      (splitNlChars (joinNl ((List.enumFrom start ls).map
          (fun e => rjustStr w (Nat.repr (e.1 + 1)) ++ " | " ++ e.2))).data).map
        (fun l => String.mk (l.drop (w + 3))) = ls := by
  intro ls
  induction ls with
  | nil => intro start _ _ hne; exact absurd rfl hne
  | cons l rest ih =>
    intro start hnb hw _
    cases rest with
    | nil =>
      rw [show List.enumFrom start [l] = [(start, l)] from rfl]
      rw [show ([(start, l)].map
          (fun e => rjustStr w (Nat.repr (e.1 + 1)) ++ " | " ++ e.2)) =
        [rjustStr w (Nat.repr (start + 1)) ++ " | " ++ l] from rfl]
      rw [show joinNl [rjustStr w (Nat.repr (start + 1)) ++ " | " ++ l] =
        rjustStr w (Nat.repr (start + 1)) ++ " | " ++ l from rfl]
      rw [splitNl_no_nl (numbered_no_nl w (start + 1) l
        (hnb l (List.mem_cons_self _ _)))]
      rw [List.map_cons, List.map_nil]
      rw [numbered_drop w (start + 1) l (by
        have := hw 0 (by simp)
        simpa using this)]
    | cons l2 rest2 =>
      rw [show List.enumFrom start (l :: l2 :: rest2) =
        (start, l) :: List.enumFrom (start + 1) (l2 :: rest2) from rfl]
      rw [List.map_cons]
      have henum : (List.enumFrom (start + 1) (l2 :: rest2)).map
          (fun e => rjustStr w (Nat.repr (e.1 + 1)) ++ " | " ++ e.2) =
          (rjustStr w (Nat.repr (start + 1 + 1)) ++ " | " ++ l2) ::
            (List.enumFrom (start + 2) rest2).map
              (fun e => rjustStr w (Nat.repr (e.1 + 1)) ++ " | " ++ e.2) := rfl
      rw [henum, joinNl_cons_data, splitNl_append _
        (numbered_no_nl w (start + 1) l (hnb l (List.mem_cons_self _ _))),
        List.map_cons]
      rw [numbered_drop w (start + 1) l (by
        have := hw 0 (by simp)
        simpa using this)]
      have hl : String.mk l.data = l := by cases l; rfl
      rw [hl]
      congr 1
      have hr := ih (start + 1)
        (fun l' hl' => hnb l' (List.mem_cons_of_mem _ hl'))
        (fun i hi => by
          have := hw (i + 1) (by simp only [List.length_cons] at hi ⊢; omega)
          have harith : start + (i + 1) + 1 = start + 1 + i + 1 := by omega
          rwa [harith] at this)
        (by simp)
      exact hr

theorem numbered_ne_nil (w n : Nat) (l : String) :
    (rjustStr w (Nat.repr n) ++ " | " ++ l).data ≠ [] := by
  rw [numbered_data]
  intro h
  have := congrArg List.length h
  simp only [List.length_append, List.length_replicate, List.length_cons,
    List.length_nil] at this
  omega

theorem joinNl_cons_ne_nil (x : String) (xs : List String) (hx : x.data ≠ []) :
    (joinNl (x :: xs)).data ≠ [] := by
  cases xs with
  | nil => exact hx
  | cons y ys =>
    rw [joinNl_cons_data]
    intro h
    rcases List.append_eq_nil.mp h with ⟨_, h2⟩
    exact absurd h2 (List.cons_ne_nil _ _)

theorem parseNumbered_of_ne_nil (r : String) (w : Nat) (h : r.data ≠ []) :
    parseNumbered r w = (splitNlChars r.data).map (fun l => String.mk (l.drop (w + 3))) := by
  unfold parseNumbered
  have hb : r.data.isEmpty = false := by
    cases hd : r.data with
    | nil => exact absurd hd h
    | cons c cs => rfl
  rw [hb]
  simp

/-! ## Claim C7 -/

set_option maxHeartbeats 1000000 in
/-- Claim C7: rendering content in the default format numbers its lines
1-based, right-aligned to the width of the largest line number, and
stripping the fixed-width number-plus-`" | "` prefix from every rendered
line reproduces the original content's lines (as `str.splitlines` yields
them) exactly; an empty content renders to an empty document with no
lines. -/
theorem c7_line_number_round_trip (content : String) :
    parseNumbered (add_line_numbers content)
        ((Nat.repr (pySplitlines content).length).length) =
      pySplitlines content := by
  have hadd : add_line_numbers content =
      joinNl (((pySplitlines content).enum).map
        (fun e => rjustStr ((Nat.repr (pySplitlines content).length).length)
          (Nat.repr (e.1 + 1)) ++ " | " ++ e.2)) := rfl
  rw [hadd]
  have hnb : ∀ l ∈ pySplitlines content, ∀ ch ∈ l.data, isLineBreak ch = false := by
    intro l hl ch hch
    unfold pySplitlines at hl
    obtain ⟨raw, hraw, hmk⟩ := List.mem_map.mp hl
    rw [← hmk] at hch
    exact no_break_of_mem_pySplitlinesChars content.data raw hraw ch hch
  have hw : ∀ i : Nat, i < (pySplitlines content).length →
      (Nat.repr (0 + i + 1)).data.length ≤
        (Nat.repr (pySplitlines content).length).length := by
    intro i hi
    have hmono : (Nat.repr (0 + i + 1)).length ≤
        (Nat.repr (pySplitlines content).length).length :=
      repr_length_mono (by omega)
    exact hmono
  revert hnb hw
  generalize pySplitlines content = L
  intro hnb hw
  cases L with
  | nil => rfl
  | cons l0 rest0 =>
    have hmain := numbered_round ((Nat.repr (l0 :: rest0).length).length)
      (l0 :: rest0) 0 hnb hw (List.cons_ne_nil _ _)
    have hne : (joinNl (((l0 :: rest0).enum).map
        (fun e => rjustStr ((Nat.repr (l0 :: rest0).length).length)
          (Nat.repr (e.1 + 1)) ++ " | " ++ e.2))).data ≠ [] := by
      rw [show ((l0 :: rest0).enum).map
          (fun e => rjustStr ((Nat.repr (l0 :: rest0).length).length)
            (Nat.repr (e.1 + 1)) ++ " | " ++ e.2) =
          (rjustStr ((Nat.repr (l0 :: rest0).length).length)
            (Nat.repr (0 + 1)) ++ " | " ++ l0) ::
            (List.enumFrom 1 rest0).map
              (fun e => rjustStr ((Nat.repr (l0 :: rest0).length).length)
                (Nat.repr (e.1 + 1)) ++ " | " ++ e.2) from rfl]
      exact joinNl_cons_ne_nil _ _ (numbered_ne_nil _ _ _)
    rw [parseNumbered_of_ne_nil _ _ hne]
    exact hmain

/-! ## Supporting lemmas: the forced git exclusion -/

theorem parse_git_dir : parseLine ".git/" = some gitDirPat := by decide

theorem parse_git_star : parseLine ".git/**" = some gitStarPat := by decide

theorem fromLines_append (a b : List String) :
    fromLines (a ++ b) = fromLines a ++ fromLines b := by
  simp [fromLines]

theorem fromLines_git : fromLines [".git/", ".git/**"] = [gitDirPat, gitStarPat] := by decide

theorem sufMatches_gitdir : ∀ comps : List String, ".git" ∈ comps.dropLast →
    sufMatches true [GSeg.lit ['.', 'g', 'i', 't']] comps = true := by
  intro comps
  induction comps with
  | nil => intro h; simp at h
  | cons c cs ih =>
    intro h
    cases cs with
    | nil => simp at h
    | cons c2 rest =>
      rw [show (c :: c2 :: rest).dropLast = c :: (c2 :: rest).dropLast from rfl] at h
      rw [show sufMatches true [GSeg.lit ['.', 'g', 'i', 't']] (c :: c2 :: rest) =
        (segsMatch true [GSeg.lit ['.', 'g', 'i', 't']] (c :: c2 :: rest) ||
          sufMatches true [GSeg.lit ['.', 'g', 'i', 't']] (c2 :: rest)) from rfl]
      rcases List.mem_cons.mp h with he | hm
      · rw [← he]
        rw [show segsMatch true [GSeg.lit ['.', 'g', 'i', 't']] (".git" :: c2 :: rest) =
          (segMatch ['.', 'g', 'i', 't'] ".git".data &&
            segsMatch true ([] : List GSeg) (c2 :: rest)) from rfl]
        rw [show segMatch ['.', 'g', 'i', 't'] ".git".data = true from by decide]
        rw [show segsMatch true ([] : List GSeg) (c2 :: rest) = !(c2 :: rest).isEmpty from rfl]
        simp
      · rw [ih hm]
        simp

theorem rawMatch_gitdir {comps : List String} (hnil : "" ∉ comps)
    (h : ".git" ∈ comps.dropLast) : rawMatch gitDirPat comps = true := by
  cases comps with
  | nil => simp at h
  | cons c cs =>
    cases cs with
    | nil => simp at h
    | cons c2 rest =>
      have hc : c ≠ "" := fun he => hnil (he ▸ List.mem_cons_self _ _)
      have hrm : rawMatch gitDirPat (c :: c2 :: rest) =
          (segsMatch true [GSeg.lit ['.', 'g', 'i', 't']] (c :: c2 :: rest) ||
            (if c = "" then sufMatches true [GSeg.lit ['.', 'g', 'i', 't']] rest
             else sufMatches true [GSeg.lit ['.', 'g', 'i', 't']] (c2 :: rest))) := rfl
      rw [hrm, if_neg hc]
      rw [show (segsMatch true [GSeg.lit ['.', 'g', 'i', 't']] (c :: c2 :: rest) ||
          sufMatches true [GSeg.lit ['.', 'g', 'i', 't']] (c2 :: rest)) =
        sufMatches true [GSeg.lit ['.', 'g', 'i', 't']] (c :: c2 :: rest) from rfl]
      exact sufMatches_gitdir _ h

theorem foldl_match_true (comps : List String) :
    ∀ B : List GPat, (∀ p ∈ B, p.neg = false) →
      B.foldl (fun acc q => if rawMatch q comps then !q.neg else acc) true = true := by
  intro B
  induction B with
  | nil => intro _; rfl
  | cons q B ih =>
    intro hB
    rw [List.foldl_cons]
    have hq : q.neg = false := hB q (List.mem_cons_self _ _)
    have hstep : (if rawMatch q comps then !q.neg else true) = true := by
      rw [hq]; cases rawMatch q comps <;> simp
    rw [hstep]
    exact ih (fun p hp => hB p (List.mem_cons_of_mem _ hp))

theorem matchFile_append_true (A B : List GPat) (q : GPat) (comps : List String)
    (hq : rawMatch q comps = true) (hqn : q.neg = false)
    (hB : ∀ p ∈ B, p.neg = false) :
    matchFile (A ++ q :: B) comps = true := by
  have h1 : matchFile (A ++ q :: B) comps =
      List.foldl (fun acc p => if rawMatch p comps then !p.neg else acc)
        (if rawMatch q comps then !q.neg else matchFile A comps) B := by
    unfold matchFile
    rw [List.foldl_append, List.foldl_cons]
  rw [h1, if_pos hq, hqn]
  exact foldl_match_true comps B hB

theorem parseLine_neg_false {line : String} {q : GPat} (h : parseLine line = some q)
    (hb : strStarts line '!' = false) : q.neg = false := by
  unfold parseLine at h
  rw [hb] at h
  simp only [Bool.false_eq_true, if_false] at h
  by_cases h1 : line = ""
  · rw [if_pos h1] at h; cases h
  · rw [if_neg h1] at h
    by_cases h2 : strStarts line '#' = true
    · rw [if_pos h2] at h; cases h
    · rw [if_neg h2] at h
      rw [if_neg h1] at h
      by_cases h3 : (if strEnds line '/' = true then String.mk line.data.dropLast
          else line) = ""
      · rw [if_pos h3] at h; cases h
      · rw [if_neg h3] at h
        have hinj := Option.some.inj h
        rw [← hinj]

theorem fromLines_neg_false {L : List String} (hL : ∀ line ∈ L, strStarts line '!' = false) :
    ∀ q ∈ fromLines L, q.neg = false := by
  intro q hq
  obtain ⟨line, hline, hparse⟩ := List.mem_filterMap.mp hq
  exact parseLine_neg_false hparse (hL line hline)

theorem str_ne_empty_data {c : String} (h : c ≠ "") : c.data ≠ [] := by
  intro hd
  apply h
  cases c with
  | mk d =>
    have hd2 : d = [] := hd
    rw [hd2]

theorem joinSlash_head (c : String) (cs : List String) (hc : c.data ≠ []) :
    (joinSlash (c :: cs)).data.head? = c.data.head? := by
  cases cs with
  | nil => rfl
  | cons c2 rest =>
    rw [show joinSlash (c :: c2 :: rest) = c ++ "/" ++ joinSlash (c2 :: rest) from rfl]
    rw [data_append, data_append]
    cases hd : c.data with
    | nil => exact absurd hd hc
    | cons ch t => rfl

theorem strStarts_eq_false_of_head {s : String} {a b : Char} (h : s.data.head? = some a)
    (hab : a ≠ b) : strStarts s b = false := by
  unfold strStarts
  rw [h]
  exact decide_eq_false (fun hc => hab (Option.some.inj hc))

theorem pathStr_bang_false {k : APath}
    (hk : k.isAbs = true ∨ ∀ c ∈ k.comps, goodName c = true) :
    strStarts (pathStr k) '!' = false := by
  cases k with
  | mk ab comps =>
    cases ab with
    | true =>
      apply strStarts_eq_false_of_head (a := '/')
      · rw [show pathStr ⟨true, comps⟩ = "/" ++ joinSlash comps from rfl, data_append]
        rfl
      · decide
    | false =>
      rcases hk with habs | hgood
      · exact Bool.noConfusion habs
      · cases comps with
        | nil =>
          apply strStarts_eq_false_of_head (a := '.')
          · rfl
          · decide
        | cons c cs =>
          have hgc : goodName c = true := hgood c (List.mem_cons_self _ _)
          have hcne : c ≠ "" := by
            intro he
            rw [he] at hgc
            exact absurd hgc (by decide)
          have hdata : c.data ≠ [] := str_ne_empty_data hcne
          cases hd : c.data with
          | nil => exact absurd hd hdata
          | cons ch t =>
            have hch : ch ≠ '!' := by
              intro he
              have hst : strStarts c '!' = true := by
                unfold strStarts
                rw [hd, he]
                rfl
              simp [goodName, hst] at hgc
            apply strStarts_eq_false_of_head (a := ch) _ hch
            rw [show pathStr ⟨false, c :: cs⟩ = joinSlash (c :: cs) from rfl]
            rw [joinSlash_head c cs hdata, hd]
            rfl

theorem splitSlashAux_no_slash : ∀ xs : List Char, '/' ∉ xs →
    splitSlashAux xs = [String.mk xs] := by
  intro xs
  induction xs with
  | nil => intro _; rfl
  | cons c rest ih =>
    intro h
    have hc : c ≠ '/' := fun he => h (he ▸ List.mem_cons_self _ _)
    simp only [splitSlashAux]
    rw [if_neg hc, ih (fun hm => h (List.mem_cons_of_mem _ hm))]

theorem splitSlashAux_append (xs ys : List Char) (h : '/' ∉ xs) :
    splitSlashAux (xs ++ '/' :: ys) = String.mk xs :: splitSlashAux ys := by
  induction xs with
  | nil =>
    rw [List.nil_append]
    simp only [splitSlashAux, if_true]
  | cons c rest ih =>
    have hc : c ≠ '/' := fun he => h (he ▸ List.mem_cons_self _ _)
    rw [List.cons_append]
    simp only [splitSlashAux]
    rw [if_neg hc, ih (fun hm => h (List.mem_cons_of_mem _ hm))]

theorem joinSlash_data_cons (c c2 : String) (cs : List String) :
    (joinSlash (c :: c2 :: cs)).data = c.data ++ '/' :: (joinSlash (c2 :: cs)).data := by
  rw [show joinSlash (c :: c2 :: cs) = c ++ "/" ++ joinSlash (c2 :: cs) from rfl]
  rw [data_append, data_append, List.append_assoc]
  rfl

theorem splitSlash_joinSlash : ∀ cs : List String, cs ≠ [] →
    (∀ c ∈ cs, goodName c = true) → splitSlashStr (joinSlash cs) = cs := by
  intro cs
  induction cs with
  | nil => intro h _; exact absurd rfl h
  | cons c rest ih =>
    intro _ hgood
    have hgc := hgood c (List.mem_cons_self _ _)
    have hnos : '/' ∉ c.data := by
      intro hm
      simp [goodName] at hgc
      exact hgc.1.1.1.1.2 hm
    cases rest with
    | nil =>
      rw [show joinSlash [c] = c from rfl]
      unfold splitSlashStr
      rw [splitSlashAux_no_slash c.data hnos]
    | cons c2 rest2 =>
      unfold splitSlashStr
      rw [joinSlash_data_cons]
      rw [splitSlashAux_append c.data _ hnos]
      have hrec := ih (by simp) (fun x hx => hgood x (List.mem_cons_of_mem _ hx))
      unfold splitSlashStr at hrec
      rw [hrec]

theorem pathStr_relP_comps (cs : List String) (hne : cs ≠ [])
    (hgood : ∀ c ∈ cs, goodName c = true) :
    splitSlashStr (pathStr (relP cs)) = cs := by
  rw [show pathStr (relP cs) = if cs = [] then "." else joinSlash cs from rfl]
  rw [if_neg hne]
  exact splitSlash_joinSlash cs hne hgood


theorem relativeTo?_append (b : Bool) (xs ys : List String) :
    relativeTo? ⟨b, xs ++ ys⟩ ⟨b, xs⟩ = some ys := by
  have h1 : xs.isPrefixOf (xs ++ ys) = true :=
    List.isPrefixOf_iff_prefix.mpr (List.prefix_append xs ys)
  unfold relativeTo?
  rw [if_pos (by simp [h1])]
  rw [List.drop_left]

theorem readContents_paths : ∀ (files : List FileEntry) (contents : List (APath × String)),
    readContents files = Except.ok contents → ∀ pc ∈ contents, ∃ f ∈ files, pc.1 = f.path := by
  intro files
  induction files with
  | nil =>
    intro contents h pc hpc
    have hc : ([] : List (APath × String)) = contents := Except.ok.inj h
    rw [← hc] at hpc
    exact absurd hpc (List.not_mem_nil _)
  | cons f fs ih =>
    intro contents h pc hpc
    rw [show readContents (f :: fs) = (match readText? f with
      | none => Except.error f.path
      | some s => (readContents fs).map (fun rest => (f.path, s) :: rest)) from rfl] at h
    split at h
    · cases h
    · rename_i s _
      cases hrec : readContents fs with
      | error e =>
        rw [hrec] at h
        simp only [Except.map] at h
        cases h
      | ok rest =>
        rw [hrec] at h
        simp only [Except.map] at h
        have hc := Except.ok.inj h
        rw [← hc] at hpc
        rcases List.mem_cons.mp hpc with he | hm
        · exact ⟨f, List.mem_cons_self _ _, by rw [he]⟩
        · obtain ⟨g, hg, hgp⟩ := ih rest hrec pc hm
          exact ⟨g, List.mem_cons_of_mem _ hg, hgp⟩

theorem mem_analyze_sizeAt_pos {fc : List (APath × String)} {root k : APath}
    (h : k ∈ analyze_content_sizes fc root) : 0 < sizeAt (item_sizes fc root) k := by
  by_cases ht : totalSize fc = 0
  · simp only [analyze_content_sizes] at h
    rw [if_pos ht] at h
    exact absurd h (List.not_mem_nil _)
  · simp only [analyze_content_sizes] at h
    rw [if_neg ht] at h
    rw [List.mem_insertionSort, List.mem_filter] at h
    have hk := (mem_pot_iff fc root (totalSize fc) k).mp h.1
    have h35 : LARGE_CONTENT_THRESHOLD_PERCENT = 35 := rfl
    rw [h35] at hk
    omega

theorem exists_contributor {fc : List (APath × String)} {root k : APath}
    (h : 0 < sizeAt (item_sizes fc root) k) :
    ∃ pc ∈ fc, contributesTo root pc.1 k := by
  rw [sizeAt_item_sizes] at h
  induction fc with
  | nil => simp at h
  | cons pc rest ih =>
    rw [List.map_cons, List.sum_cons] at h
    by_cases hc : contributesTo root pc.1 k
    · exact ⟨pc, List.mem_cons_self _ _, hc⟩
    · rw [if_neg hc] at h
      obtain ⟨e, he, hce⟩ := ih (by simpa using h)
      exact ⟨e, List.mem_cons_of_mem _ he, hce⟩

theorem contributesTo_shape {root p k : APath} (hp : p.isAbs = true)
    (h : contributesTo root p k) :
    k.isAbs = true ∨ (k.isAbs = false ∧ ∀ c ∈ k.comps, c ∈ p.comps) := by
  unfold contributesTo at h
  have hsplit : relativeTo? p root = none ∨ ∃ rel, relativeTo? p root = some rel := by
    cases relativeTo? p root with
    | none => exact Or.inl rfl
    | some rel => exact Or.inr ⟨rel, rfl⟩
  rcases hsplit with ho | ⟨rel, ho⟩
  · rw [ho] at h
    left
    rw [h]
    exact hp
  · rw [ho] at h
    have hrel : rel = p.comps.drop root.comps.length := by
      unfold relativeTo? at ho
      by_cases hc : (decide (p.isAbs = root.isAbs) && root.comps.isPrefixOf p.comps) = true
      · rw [if_pos hc] at ho
        exact (Option.some.inj ho).symm
      · rw [if_neg hc] at ho
        cases ho
    rcases h with hk | ⟨hab, _, hpre, _⟩
    · right
      rw [hk]
      exact ⟨rfl, fun c hc => by
        rw [hrel] at hc
        exact List.mem_of_mem_drop hc⟩
    · right
      refine ⟨hab, fun c hc => ?_⟩
      have hcr : c ∈ rel := (List.isPrefixOf_iff_prefix.mp hpre).subset hc
      rw [hrel] at hcr
      exact List.mem_of_mem_drop hcr

theorem mem_ite_singleton {α : Type} {P : Prop} [Decidable P] {a x : α}
    (h : a ∈ (if P then [x] else [])) : a = x := by
  by_cases hp : P
  · rw [if_pos hp] at h
    exact List.mem_singleton.mp h
  · rw [if_neg hp] at h
    exact absurd h (List.not_mem_nil _)

theorem collected_path_good {cfg : RunCfg} {exL : List String} {f : FileEntry}
    (hwf : wfCfg cfg = true) (hf : f ∈ selectFiles cfg exL) :
    f.path.isAbs = true ∧ f.path.comps ≠ [] ∧ ∀ c ∈ f.path.comps, goodName c = true := by
  unfold selectFiles at hf
  rw [mem_collect_files] at hf
  obtain ⟨r, hr, hfr⟩ := hf
  have hwr : wfRoot r = true := List.all_eq_true.mp (by unfold wfCfg at hwf; exact hwf) r hr
  unfold collectRoot at hfr
  unfold wfRoot at hwr
  cases hre : r.entry with
  | fileRoot d pg =>
    rw [hre] at hfr hwr
    rw [Bool.and_eq_true] at hwr
    have hfx : f = ⟨⟨true, r.startAbs⟩, d⟩ := mem_ite_singleton hfr
    have hne : r.startAbs ≠ [] := by
      intro hemp
      have h2 : (!List.isEmpty ([] : List String)) = true := by
        rw [← hemp]
        exact hwr.2
      exact Bool.noConfusion h2
    refine ⟨by rw [hfx], by rw [hfx]; exact hne, ?_⟩
    intro c hc
    rw [hfx] at hc
    exact List.all_eq_true.mp hwr.1 c hc
  | dirRoot fs =>
    rw [hre] at hfr hwr
    rw [Bool.and_eq_true] at hwr
    obtain ⟨e, he, hfe⟩ := List.mem_map.mp hfr
    obtain ⟨hemem, _⟩ := List.mem_filter.mp he
    have hwfs : wfDirFS fs = true := hwr.2
    unfold wfDirFS at hwfs
    rw [Bool.and_eq_true] at hwfs
    have hee := List.all_eq_true.mp hwfs.1 e hemem
    rw [Bool.and_eq_true] at hee
    have hene : e.1 ≠ [] := by
      intro hemp
      rw [hemp] at hee
      exact Bool.noConfusion hee.1
    refine ⟨by rw [← hfe], ?_, ?_⟩
    · rw [← hfe]
      intro hemp
      have : e.1 = [] := List.append_eq_nil.mp hemp |>.2
      exact hene this
    · intro c hc
      rw [← hfe] at hc
      rcases List.mem_append.mp hc with hcs | hce
      · exact List.all_eq_true.mp hwr.1 c hcs
      · exact List.all_eq_true.mp hee.2 c hce

theorem offender_line_no_bang {cfg : RunCfg} {exL : List String}
    {contents : List (APath × String)} {common k : APath} (hwf : wfCfg cfg = true)
    (hread : readContents (selectFiles cfg exL) = Except.ok contents)
    (hk : k ∈ analyze_content_sizes contents common) :
    strStarts (pathStr k) '!' = false := by
  have hpos := mem_analyze_sizeAt_pos hk
  obtain ⟨pc, hpc, hcontr⟩ := exists_contributor hpos
  obtain ⟨fl, hfl, hfp⟩ := readContents_paths _ _ hread pc hpc
  have hgood := collected_path_good hwf hfl
  rw [hfp] at hcontr
  rcases contributesTo_shape hgood.1 hcontr with habs | ⟨_, hsub⟩
  · exact pathStr_bang_false (Or.inl habs)
  · exact pathStr_bang_false (Or.inr (fun c hc => hgood.2.2 c (hsub c hc)))

theorem iterateOnce_again_inv {cfg : RunCfg} {ex : List String} {e : List String}
    (h : iterateOnce cfg ex = .again e) :
    ∃ contents, readContents (selectFiles cfg ex) = Except.ok contents ∧
      analyze_content_sizes contents
        ⟨true, commonPathList ((selectFiles cfg ex).map (fun f => f.path.comps))⟩ ≠ [] ∧
      e = ex ++ (analyze_content_sizes contents
        ⟨true, commonPathList ((selectFiles cfg ex).map (fun f => f.path.comps))⟩).map
          pathStr := by
  simp only [iterateOnce] at h
  by_cases hemp : (selectFiles cfg ex).isEmpty = true
  · rw [if_pos hemp] at h
    cases h
  · rw [if_neg hemp] at h
    split at h
    · cases h
    · rename_i contents hrc
      by_cases hlar : (analyze_content_sizes contents
          ⟨true, commonPathList ((selectFiles cfg ex).map (fun f => f.path.comps))⟩).isEmpty
            = true
      · rw [if_pos hlar] at h
        cases h
      · rw [if_neg hlar] at h
        refine ⟨contents, hrc, ?_, (StepRes.again.inj h).symm⟩
        intro hc
        rw [hc] at hlar
        exact hlar rfl

theorem excludeAt_structure (cfg : RunCfg) (hwf : wfCfg cfg = true) : ∀ n : Nat,
    ∃ extra : List String,
      excludeAt cfg n = cfg.userExclude ++ ([".git/", ".git/**"] ++ extra) ∧
      ∀ q ∈ fromLines extra, q.neg = false := by
  intro n
  induction n with
  | zero =>
    refine ⟨[], ?_, ?_⟩
    · simp [excludeAt, cliInitExclude]
    · intro q hq
      exact absurd hq (List.not_mem_nil _)
  | succ n ih =>
    obtain ⟨extra, hex, hneg⟩ := ih
    cases hit : iterateOnce cfg (excludeAt cfg n) with
    | readError p =>
      have hstep : excludeAt cfg (n + 1) = excludeAt cfg n := by
        show (match iterateOnce cfg (excludeAt cfg n) with
          | .again e2 => e2
          | _ => excludeAt cfg n) = excludeAt cfg n
        rw [hit]
      exact ⟨extra, by rw [hstep]; exact hex, hneg⟩
    | empty =>
      have hstep : excludeAt cfg (n + 1) = excludeAt cfg n := by
        show (match iterateOnce cfg (excludeAt cfg n) with
          | .again e2 => e2
          | _ => excludeAt cfg n) = excludeAt cfg n
        rw [hit]
      exact ⟨extra, by rw [hstep]; exact hex, hneg⟩
    | done a b =>
      have hstep : excludeAt cfg (n + 1) = excludeAt cfg n := by
        show (match iterateOnce cfg (excludeAt cfg n) with
          | .again e2 => e2
          | _ => excludeAt cfg n) = excludeAt cfg n
        rw [hit]
      exact ⟨extra, by rw [hstep]; exact hex, hneg⟩
    | again e2 =>
      have hstep : excludeAt cfg (n + 1) = e2 := by
        show (match iterateOnce cfg (excludeAt cfg n) with
          | .again e2 => e2
          | _ => excludeAt cfg n) = e2
        rw [hit]
      obtain ⟨contents, hread, _, he2⟩ := iterateOnce_again_inv hit
      refine ⟨extra ++ (analyze_content_sizes contents
        ⟨true, commonPathList ((selectFiles cfg (excludeAt cfg n)).map
          (fun f => f.path.comps))⟩).map pathStr, ?_, ?_⟩
      · rw [hstep, he2, hex]
        simp [List.append_assoc]
      · intro q hq
        rw [fromLines_append] at hq
        rcases List.mem_append.mp hq with hq1 | hq2
        · exact hneg q hq1
        · refine fromLines_neg_false ?_ q hq2
          intro line hline
          obtain ⟨k, hk, hkl⟩ := List.mem_map.mp hline
          rw [← hkl]
          exact offender_line_no_bang hwf hread hk

theorem is_ignored_true_of_exclude {p : APath} {cache : GitCache} {sr : APath}
    {ex : List GPat} {inc : Option (List GPat)} {rel : List String}
    (hrel : relativeTo? p sr = some rel)
    (hm : matchStr ex (pathStr (relP rel)) = true) :
    is_ignored p cache sr ex inc = true := by
  simp [is_ignored, hrel, hm]

/-! ## Claim C8 -/

/-- Claim C8: the patterns `.git/` and `.git/**` are appended to the user
excludes before the first selection regardless of options, and (for a
well-formed filesystem, whose file names cannot begin with the gitignore
metacharacters) no selection of any iteration contains a file lying
strictly below a directory named `.git` within its search scope: the
forced `.git/` pattern matches any such relative path, later appended
offender lines are never negations, and `is_ignored` therefore rejects
the file. -/
theorem c8_git_always_excluded (cfg : RunCfg) (hwf : wfCfg cfg = true) :
    excludeAt cfg 0 = cfg.userExclude ++ [".git/", ".git/**"] ∧
    ∀ (n : Nat) (f : FileEntry), f ∈ selectAt cfg n →
      ∃ r ∈ cfg.roots, ∃ rel, f.path = ⟨true, r.startAbs ++ rel⟩ ∧
        ".git" ∉ rel.dropLast := by
  refine ⟨rfl, ?_⟩
  intro n f hf
  have hf2 : f ∈ collect_files cfg.roots cfg.includeLines (excludeAt cfg n)
      cfg.no_gitignore cfg.no_binary_filter cfg.use_extension_filter := hf
  rw [mem_collect_files] at hf2
  obtain ⟨r, hr, hfr⟩ := hf2
  refine ⟨r, hr, ?_⟩
  have hwr : wfRoot r = true := List.all_eq_true.mp (by unfold wfCfg at hwf; exact hwf) r hr
  unfold collectRoot at hfr
  unfold wfRoot at hwr
  cases hre : r.entry with
  | fileRoot d pg =>
    rw [hre] at hfr
    have hfx : f = ⟨⟨true, r.startAbs⟩, d⟩ := mem_ite_singleton hfr
    refine ⟨[], ?_, by simp⟩
    rw [hfx]
    simp
  | dirRoot fs =>
    rw [hre] at hfr hwr
    simp only [Bool.and_eq_true] at hwr
    obtain ⟨e, he, hfe⟩ := List.mem_map.mp hfr
    obtain ⟨hemem, hepred⟩ := List.mem_filter.mp he
    have hwfs : wfDirFS fs = true := hwr.2
    unfold wfDirFS at hwfs
    simp only [Bool.and_eq_true] at hwfs
    have hee := List.all_eq_true.mp hwfs.1 e hemem
    simp only [Bool.and_eq_true] at hee
    have hene : e.1 ≠ [] := by
      intro hemp
      rw [hemp] at hee
      exact Bool.noConfusion hee.1
    have hegood : ∀ c ∈ e.1, goodName c = true := List.all_eq_true.mp hee.2
    refine ⟨e.1, by rw [← hfe], ?_⟩
    intro hgit
    simp only [fileCollected, Bool.and_eq_true, Bool.not_eq_true'] at hepred
    obtain ⟨⟨_, hnig⟩, _⟩ := hepred
    have hrel : relativeTo? ⟨true, r.startAbs ++ e.1⟩ ⟨true, r.startAbs⟩ = some e.1 :=
      relativeTo?_append true r.startAbs e.1
    have hnil : "" ∉ e.1 := by
      intro hm
      exact absurd (hegood "" hm) (by decide)
    have hraw : rawMatch gitDirPat e.1 = true := rawMatch_gitdir hnil hgit
    obtain ⟨extra, hex, hneg⟩ := excludeAt_structure cfg hwf n
    have hmf : matchFile (fromLines (excludeAt cfg n)) e.1 = true := by
      rw [hex, fromLines_append, fromLines_append, fromLines_git]
      rw [show (fromLines cfg.userExclude ++ ([gitDirPat, gitStarPat] ++ fromLines extra))
          = (fromLines cfg.userExclude ++ (gitDirPat :: (gitStarPat :: fromLines extra)))
        from rfl]
      exact matchFile_append_true _ _ _ _ hraw rfl
        (fun p hp => by
          rcases List.mem_cons.mp hp with hp1 | hp2
          · rw [hp1]
            rfl
          · exact hneg p hp2)
    have hstr : matchStr (fromLines (excludeAt cfg n)) (pathStr (relP e.1)) = true := by
      unfold matchStr
      rw [pathStr_relP_comps e.1 hene hegood]
      exact hmf
    have hign : is_ignored ⟨true, r.startAbs ++ e.1⟩
        (dirCacheFor cfg.no_gitignore r.startAbs fs e.1) ⟨true, r.startAbs⟩
        (fromLines (excludeAt cfg n))
        (if cfg.includeLines.isEmpty then none else some (fromLines cfg.includeLines))
          = true :=
      is_ignored_true_of_exclude hrel hstr
    rw [hign] at hnig
    cases hnig

/-- Claim C8, witness: the concrete run over a tree hiding files under
`.git` directories at two levels satisfies the well-formedness hypothesis,
and the theorem applies to it. -/
theorem c8_git_always_excluded_witness :
    wfCfg cfgG = true ∧
    (excludeAt cfgG 0 = cfgG.userExclude ++ [".git/", ".git/**"] ∧
      ∀ (n : Nat) (f : FileEntry), f ∈ selectAt cfgG n →
        ∃ r ∈ cfgG.roots, ∃ rel, f.path = ⟨true, r.startAbs ++ rel⟩ ∧
          ".git" ∉ rel.dropLast) :=
  ⟨by decide, c8_git_always_excluded cfgG (by decide)⟩

theorem terminal_false_again {cfg : RunCfg} {n : Nat} (h : terminalAt cfg n = false) :
    ∃ e, iterateOnce cfg (excludeAt cfg n) = .again e ∧ excludeAt cfg (n + 1) = e := by
  unfold terminalAt at h
  rw [Bool.not_eq_false'] at h
  cases hit : iterateOnce cfg (excludeAt cfg n) with
  | again e =>
    refine ⟨e, rfl, ?_⟩
    show (match iterateOnce cfg (excludeAt cfg n) with
      | .again e2 => e2
      | _ => excludeAt cfg n) = e
    rw [hit]
  | readError p => rw [hit] at h; cases h
  | empty => rw [hit] at h; cases h
  | done a b => rw [hit] at h; cases h

theorem fromLines_replicate_dot (n : Nat) :
    fromLines (List.replicate n ".") =
      List.replicate n ⟨false, false, false, [GSeg.lit ['.']]⟩ := by
  induction n with
  | zero => rfl
  | succ n ih =>
    rw [List.replicate_succ, List.replicate_succ]
    have hp : parseLine "." = some ⟨false, false, false, [GSeg.lit ['.']]⟩ := by decide
    unfold fromLines at ih ⊢
    rw [List.filterMap_cons_some hp, ih]

theorem matchFile_false_of_all {ps : List GPat} {comps : List String}
    (h : ∀ q ∈ ps, rawMatch q comps = false) : matchFile ps comps = false := by
  unfold matchFile
  induction ps with
  | nil => rfl
  | cons q rest ih =>
    rw [List.foldl_cons]
    have hq := h q (List.mem_cons_self _ _)
    rw [hq]
    simp only [Bool.false_eq_true, if_false]
    exact ih (fun p hp => h p (List.mem_cons_of_mem _ hp))

theorem ex_cfg1_inert (n : Nat) :
    matchFile (fromLines ([".git/", ".git/**"] ++ List.replicate n ".")) ["f.txt"] = false := by
  rw [fromLines_append, fromLines_git, fromLines_replicate_dot]
  apply matchFile_false_of_all
  intro q hq
  rcases List.mem_append.mp hq with h1 | h2
  · rcases List.mem_cons.mp h1 with he | h1b
    · rw [he]; decide
    · rcases List.mem_cons.mp h1b with he2 | h0
      · rw [he2]; decide
      · exact absurd h0 (List.not_mem_nil _)
  · rw [List.eq_of_mem_replicate h2]
    decide

theorem is_ignored_cfg1 {exG : List GPat} (h : matchFile exG ["f.txt"] = false) :
    is_ignored ⟨true, ["r"] ++ ["f.txt"]⟩
      (dirCacheFor true ["r"] ⟨[(["f.txt"], some [104, 101, 108, 108, 111])], []⟩ ["f.txt"])
      ⟨true, ["r"]⟩ exG none = false := by
  have hrel : relativeTo? (⟨true, ["r"] ++ ["f.txt"]⟩ : APath) ⟨true, ["r"]⟩
      = some ["f.txt"] := by decide
  simp only [is_ignored, hrel, matchStr]
  rw [show splitSlashStr (pathStr (relP ["f.txt"])) = ["f.txt"] from by decide]
  rw [h]
  decide

theorem fileCollected_cfg1 {exG : List GPat} (h : matchFile exG ["f.txt"] = false) :
    fileCollected true true false exG none ["r"]
      ⟨[(["f.txt"], some [104, 101, 108, 108, 111])], []⟩
      (["f.txt"], some [104, 101, 108, 108, 111]) = true := by
  simp only [fileCollected]
  rw [is_ignored_cfg1 h]
  rw [show prefixesUpto ((["f.txt"] : List String).dropLast) = [[]] from rfl]
  simp only [List.all_cons, List.all_nil, List.isEmpty_nil, Bool.true_or, Bool.and_true,
    Bool.true_and, Bool.not_false]
  decide

theorem collectRoot_cfg1 {exG : List GPat} (h : matchFile exG ["f.txt"] = false) :
    collectRoot true true false exG none
      ⟨["r"], .dirRoot ⟨[(["f.txt"], some [104, 101, 108, 108, 111])], []⟩⟩ =
      [⟨⟨true, ["r", "f.txt"]⟩, some [104, 101, 108, 108, 111]⟩] := by
  simp only [collectRoot]
  rw [List.filter_cons, fileCollected_cfg1 h]
  simp

theorem selectFiles_cfg1 {exL : List String} (h : matchFile (fromLines exL) ["f.txt"] = false) :
    selectFiles cfg1 exL =
      [⟨⟨true, ["r", "f.txt"]⟩, some [104, 101, 108, 108, 111]⟩] := by
  simp only [selectFiles, collect_files, cfg1]
  rw [show (if ([] : List String).isEmpty = true then none
      else some (fromLines ([] : List String))) = (none : Option (List GPat)) from rfl]
  rw [show ([(⟨["r"], .dirRoot ⟨[(["f.txt"], some [104, 101, 108, 108, 111])], []⟩⟩ :
        Root)].flatMap (collectRoot true true false (fromLines exL) none)) =
    collectRoot true true false (fromLines exL) none
      ⟨["r"], .dirRoot ⟨[(["f.txt"], some [104, 101, 108, 108, 111])], []⟩⟩ ++ [] from rfl]
  rw [collectRoot_cfg1 h]
  decide

theorem iterateOnce_cfg1 (n : Nat) :
    iterateOnce cfg1 ([".git/", ".git/**"] ++ List.replicate n ".") =
      .again (([".git/", ".git/**"] ++ List.replicate n ".") ++ ["."]) := by
  have hsel := selectFiles_cfg1 (ex_cfg1_inert n)
  simp only [iterateOnce, hsel,
    show (([(⟨⟨true, ["r", "f.txt"]⟩, some [104, 101, 108, 108, 111]⟩ : FileEntry)]).isEmpty)
      = false from rfl,
    Bool.false_eq_true, if_false,
    show readContents [(⟨⟨true, ["r", "f.txt"]⟩, some [104, 101, 108, 108, 111]⟩ : FileEntry)]
      = Except.ok [((⟨true, ["r", "f.txt"]⟩ : APath), "hello")] from rfl,
    show commonPathList (List.map (fun f => f.path.comps)
        [(⟨⟨true, ["r", "f.txt"]⟩, some [104, 101, 108, 108, 111]⟩ : FileEntry)])
      = ["r", "f.txt"] from by decide,
    show analyze_content_sizes [((⟨true, ["r", "f.txt"]⟩ : APath), "hello")]
        ⟨true, ["r", "f.txt"]⟩ = [(⟨false, []⟩ : APath)] from by decide,
    show (([(⟨false, []⟩ : APath)]).isEmpty) = false from rfl,
    show List.map pathStr [(⟨false, []⟩ : APath)] = ["."] from by decide]

theorem excludeAt_cfg1 (n : Nat) :
    excludeAt cfg1 n = [".git/", ".git/**"] ++ List.replicate n "." := by
  induction n with
  | zero => rfl
  | succ n ih =>
    have hstep : excludeAt cfg1 (n + 1) = (match iterateOnce cfg1 (excludeAt cfg1 n) with
      | .again e2 => e2
      | _ => excludeAt cfg1 n) := rfl
    rw [hstep, ih, iterateOnce_cfg1 n, List.append_assoc]
    rw [show List.replicate n "." ++ ["."] = List.replicate (n + 1) "."
      from (List.replicate_succ' n ".").symm]

/-! ## Claim C1 -/

theorem terminalAt_cfg1_false : ∀ n : Nat, terminalAt cfg1 n = false := by
  intro n
  unfold terminalAt
  rw [excludeAt_cfg1 n, iterateOnce_cfg1 n]
  rfl

/-- Claim C1, counterexample to termination: on the single-file run the
common root is the file itself, every iteration reports the offender
`Path('.')`, and the appended exclude line `.` matches no file, so the
selection never changes and no iteration is terminal — the loop runs
forever even though the exclude list strictly grows. -/
theorem c1_nontermination_counterexample :
    terminalAt cfg1 0 = false ∧ ∀ n : Nat, terminalAt cfg1 n = false :=
  ⟨terminalAt_cfg1_false 0, terminalAt_cfg1_false⟩

/-- Claim C1 as amended: every confirmed non-terminal iteration strictly
extends the exclude list (the nonempty offender list is appended), but
this growth does not bound the number of iterations — see the
counterexample, where the appended pattern never changes the selection. -/
theorem c1_confirmed_growth_amended (cfg : RunCfg) (n : Nat)
    (h : terminalAt cfg n = false) :
    ∃ L : List String, L ≠ [] ∧ excludeAt cfg (n + 1) = excludeAt cfg n ++ L := by
  obtain ⟨e, hit, hstep⟩ := terminal_false_again h
  obtain ⟨contents, _, hne, he⟩ := iterateOnce_again_inv hit
  refine ⟨(analyze_content_sizes contents
    ⟨true, commonPathList ((selectFiles cfg (excludeAt cfg n)).map
      (fun f => f.path.comps))⟩).map pathStr, ?_, by rw [hstep, he]⟩
  intro hmap
  exact hne (List.map_eq_nil_iff.mp hmap)

/-- Claim C1, witness: the two-file run is non-terminal at iteration 0 and
the theorem yields its strict exclude-list extension. -/
theorem c1_confirmed_growth_amended_witness :
    terminalAt cfgT 0 = false ∧
    ∃ L : List String, L ≠ [] ∧ excludeAt cfgT 1 = excludeAt cfgT 0 ++ L :=
  ⟨by decide, c1_confirmed_growth_amended cfgT 0 (by decide)⟩

end Prompt
